import Mathlib

/-!
# Verification of the containers of `data_structures_benchmark`

A shallow embedding of `include/ring_buffer.hpp`,
`include/sorted_vector_map.hpp` and `include/small_vector.hpp`, followed by the
theorems that settle the claims made about them.

Modelling conventions.

* A `std::vector<T>` is a `List T`; `v[i] = x` is `List.set`, `v[i]` is a
  lookup at index `i`.
* `std::size_t` is `Nat`.  Every index the ring buffer computes is below
  `2 * cap_`, and `cap_` is the length of an allocated `std::vector`, which is
  at most `PTRDIFF_MAX`; no computation of the class can wrap.
* Storage allocation is assumed to succeed, except in the functions whose name
  ends in `_on`: they embed the two places where the caller chooses the size
  of the storage (`RingBuffer(capacity)` and `SmallVector::reserve(new_cap)`)
  on a `Target`, with the limit of `std::vector`, the `size_t` product
  `sizeof(T) * new_cap` taken modulo `2 ^ 64`, and `::operator new` failing
  with `std::bad_alloc`.
* A function that throws returns `Except Exception _`; the exception carries
  the same class and message as in the source.
* A member function that mutates `*this` returns the new object.
* Raw storage used with placement `new` is a list of slots, `none` for a slot
  without a live object; element constructors and destructors are taken not to
  throw.  The reference argument of `emplace_back` is an `Arg`: an object
  outside the vector, or one of the vector's own elements.
* Where a member function tests `this == &other`, the objects live in a map
  from addresses to objects and the function is given the two addresses.
-/

set_option autoImplicit false

/-- The exception classes thrown by the containers and by the library calls
they make, with their message. -/
inductive Exception where
  | invalid_argument (what : String)
  | runtime_error (what : String)
  | out_of_range (what : String)
  | length_error (what : String)
  | bad_alloc
  deriving DecidableEq, Repr

deriving instance DecidableEq for Except

/-- The modulus of `std::size_t` arithmetic: `SIZE_MAX + 1` on a 64-bit
target. -/
def SIZE_MODULUS : Nat := 2 ^ 64

/-- What the embedding takes from the target a program runs on: `sizeof(T)`
for the element type, `std::vector<T>::max_size()`, and the largest request in
bytes that `::operator new` satisfies (a larger one throws `std::bad_alloc`). -/
structure Target where
  sizeof_T : Nat
  max_size : Nat
  heap_bytes : Nat
  deriving DecidableEq, Repr

/-- A 64-bit target with `T = int`: `sizeof(int) == 4`, `max_size()` of
`std::vector<int>` as libstdc++ computes it (`PTRDIFF_MAX / sizeof(int)`), and
a heap of `2 ^ 40` bytes. -/
def lp64_int : Target :=
  { sizeof_T := 4
    max_size := (2 ^ 63 - 1) / 4
    heap_bytes := 2 ^ 40 }

/-- The constructor `std::vector<T>(n)`: it throws `std::length_error` when `n`
exceeds `max_size()` (the message is the one of libstdc++), `std::bad_alloc`
when the storage cannot be allocated, and otherwise holds `n` value-initialised
elements. -/
def vector_ctor {T : Type} [Inhabited T] (t : Target) (n : Nat) : Except Exception (List T) :=
  if t.max_size < n then
    .error (.length_error "cannot create std::vector larger than max_size()")
  else if t.heap_bytes < n * t.sizeof_T then
    .error .bad_alloc
  else
    .ok (List.replicate n default)

/-! ## `ring_buffer.hpp` -/

/-- The data members of `template <class T> class RingBuffer`. -/
structure RingBuffer (T : Type) where
  buf_ : List T
  cap_ : Nat
  head_ : Nat
  tail_ : Nat
  size_ : Nat
  deriving DecidableEq, Repr

namespace RingBuffer

variable {T : Type}

/-- The member initialisers of the constructor: `buf_(capacity)`
value-initialises `capacity` slots, `cap_(capacity)`, `head_(0)`, `tail_(0)`,
`size_(0)`. -/
def init [Inhabited T] (capacity : Nat) : RingBuffer T :=
  { buf_ := List.replicate capacity default
    cap_ := capacity
    head_ := 0
    tail_ := 0
    size_ := 0 }

/-- The constructor `explicit RingBuffer(std::size_t capacity)` on a target
where `buf_(capacity)` can be constructed: the member initialisers run first,
then the body rejects a zero capacity.  `new_on` is the constructor on any
target. -/
def new [Inhabited T] (capacity : Nat) : Except Exception (RingBuffer T) :=
  let self : RingBuffer T := init capacity
  if self.cap_ = 0 then
    .error (.invalid_argument "RingBuffer capacity must be > 0")
  else
    .ok self

/-- The constructor `explicit RingBuffer(std::size_t capacity)` on the target
`t`.  The members are initialised in the order they are declared, `buf_`
first: an exception of `std::vector<T>(capacity)` leaves the constructor before
the body tests `cap_ == 0`. -/
def new_on [Inhabited T] (t : Target) (capacity : Nat) : Except Exception (RingBuffer T) :=
  match vector_ctor t capacity with
  | .error e => .error e
  | .ok buf =>
    let self : RingBuffer T :=
      { buf_ := buf
        cap_ := capacity
        head_ := 0
        tail_ := 0
        size_ := 0 }
    if self.cap_ = 0 then
      .error (.invalid_argument "RingBuffer capacity must be > 0")
    else
      .ok self

/-- Embeds `size()`. -/
def size (self : RingBuffer T) : Nat := self.size_

/-- Embeds `capacity()`. -/
def capacity (self : RingBuffer T) : Nat := self.cap_

/-- Embeds `empty()`. -/
def empty (self : RingBuffer T) : Bool := self.size_ == 0

/-- Embeds `full()`. -/
def full (self : RingBuffer T) : Bool := self.size_ == self.cap_

/-- Embeds `advance_tail_()`: `tail_ = (tail_ + 1) % cap_; ++size_;`. -/
def advance_tail_ (self : RingBuffer T) : RingBuffer T :=
  { self with tail_ := (self.tail_ + 1) % self.cap_, size_ := self.size_ + 1 }

/-- Embeds `advance_head_()`: `head_ = (head_ + 1) % cap_; --size_;`.  Both
callers test `empty()` first, so `size_` is positive here. -/
def advance_head_ (self : RingBuffer T) : RingBuffer T :=
  { self with head_ := (self.head_ + 1) % self.cap_, size_ := self.size_ - 1 }

/-- Embeds `push(const T&)` and `push(T&&)`, which differ only in how the value
is handed over. -/
def push (self : RingBuffer T) (value : T) : Except Exception (RingBuffer T) :=
  if self.full then
    .error (.runtime_error "RingBuffer is full")
  else
    .ok (advance_tail_ { self with buf_ := self.buf_.set self.tail_ value })

/-- Embeds `try_push(const T&)` and `try_push(T&&)`: the returned flag and the
object afterwards. -/
def try_push (self : RingBuffer T) (value : T) : Bool × RingBuffer T :=
  if self.full then (false, self)
  else (true, advance_tail_ { self with buf_ := self.buf_.set self.tail_ value })

/-- Embeds `pop()`. -/
def pop (self : RingBuffer T) : Except Exception (RingBuffer T) :=
  if self.empty then
    .error (.runtime_error "RingBuffer is empty")
  else
    .ok (advance_head_ self)

/-- Embeds `try_pop()`: the returned flag and the object afterwards. -/
def try_pop (self : RingBuffer T) : Bool × RingBuffer T :=
  if self.empty then (false, self)
  else (true, advance_head_ self)

/-- Embeds `front()` (both overloads): the element referred to.  The body
contains no assignment, so the object is not part of the result. -/
def front [Inhabited T] (self : RingBuffer T) : Except Exception T :=
  if self.empty then
    .error (.runtime_error "RingBuffer is empty")
  else
    .ok (self.buf_.getD self.head_ default)

/-- Embeds `back()` (both overloads): the element referred to. -/
def back [Inhabited T] (self : RingBuffer T) : Except Exception T :=
  if self.empty then
    .error (.runtime_error "RingBuffer is empty")
  else
    let idx := (self.tail_ + self.cap_ - 1) % self.cap_
    .ok (self.buf_.getD idx default)

/-- The calls that change a ring buffer. -/
inductive Call (T : Type) where
  | push (value : T)
  | try_push (value : T)
  | pop
  | try_pop
  deriving DecidableEq, Repr

/-- What a call reports to its caller. -/
inductive Outcome where
  | returned
  | returned_flag (flag : Bool)
  | threw (e : Exception)
  deriving DecidableEq, Repr

/-- Whether the outcome is that of an accepted call. -/
def Outcome.accepted : Outcome → Bool
  | .returned => true
  | .returned_flag flag => flag
  | .threw _ => false

/-- One call on the object: the object afterwards and what the caller saw.  A
call that throws does so before any member is assigned, so the object is the
one before the call. -/
def call (self : RingBuffer T) : Call T → RingBuffer T × Outcome
  | .push value =>
    match self.push value with
    | .ok next => (next, .returned)
    | .error e => (self, .threw e)
  | .try_push value =>
    let r := self.try_push value
    (r.2, .returned_flag r.1)
  | .pop =>
    match self.pop with
    | .ok next => (next, .returned)
    | .error e => (self, .threw e)
  | .try_pop =>
    let r := self.try_pop
    (r.2, .returned_flag r.1)

/-- A finite sequence of calls, left to right: the final object and the
outcomes in call order. -/
def run (self : RingBuffer T) : List (Call T) → RingBuffer T × List Outcome
  | [] => (self, [])
  | c :: cs =>
    let r := self.call c
    let rest := run r.1 cs
    (rest.1, r.2 :: rest.2)

/-- The bounded FIFO list of the specification, one call: a push appends its
value iff the list is shorter than the capacity, a pop removes the first
element iff the list is non-empty; the flag says whether the call was
accepted. -/
def fifoCall (C : Nat) (L : List T) : Call T → List T × Bool
  | .push value | .try_push value =>
    if L.length < C then (L ++ [value], true) else (L, false)
  | .pop | .try_pop =>
    match L with
    | [] => ([], false)
    | _ :: rest => (rest, true)

/-- The bounded FIFO list of the specification over a sequence of calls. -/
def fifoRun (C : Nat) (L : List T) : List (Call T) → List T × List Bool
  | [] => (L, [])
  | c :: cs =>
    let r := fifoCall C L c
    let rest := fifoRun C r.1 cs
    (rest.1, r.2 :: rest.2)

/-- The representation invariant of a live ring buffer of capacity `C`. -/
structure Inv (C : Nat) (rb : RingBuffer T) : Prop where
  cap_eq : rb.cap_ = C
  cap_pos : 0 < rb.cap_
  buf_len : rb.buf_.length = rb.cap_
  head_lt : rb.head_ < rb.cap_
  tail_eq : rb.tail_ = (rb.head_ + rb.size_) % rb.cap_
  size_le : rb.size_ ≤ rb.cap_

/-- The refinement relation between a ring buffer of capacity `C` and the
bounded FIFO list `L`: the live slots, read from `head_` on with wrap-around,
are the elements of `L` in order. -/
structure Abs (C : Nat) (rb : RingBuffer T) (L : List T) : Prop where
  inv : Inv C rb
  len : L.length = rb.size_
  slot : ∀ i, i < rb.size_ → rb.buf_[(rb.head_ + i) % rb.cap_]? = L[i]?

end RingBuffer

/-! ## `sorted_vector_map.hpp` -/

/-- The data member of `template <typename K, typename V> class SortedVectorMap`. -/
structure SortedVectorMap (K V : Type) where
  data_ : List (K × V)
  deriving DecidableEq, Repr

namespace SortedVectorMap

variable {K V : Type}

/-- The loop of `std::lower_bound(first, first + len, key, comp)` with
`comp(p, k) = p.first < k`, on positions of `data`:
`while (len > 0) { half = len / 2; middle = first + half;
if (comp(*middle, key)) { first = middle + 1; len = len - half - 1; } else len = half; }
return first;`.
Each round makes `len` smaller, so `fuel = len` rounds are enough
(`lower_bound_loop_fuel`: more fuel does not change the result).  When
`first + len` is at most the length of `data`, as it is for the call below and
stays in every round, `middle < first + len` is inside `data`, so the branch for
a position outside is never taken. -/
def lower_bound_loop [LT K] [DecidableRel (LT.lt : K → K → Prop)]
    (data : List (K × V)) (key : K) : Nat → Nat → Nat → Nat
  | 0, first, _ => first
  | fuel + 1, first, len =>
    if len = 0 then first
    else
      let half := len / 2
      let middle := first + half
      match data[middle]? with
      | some p =>
        if p.1 < key then lower_bound_loop data key fuel (middle + 1) (len - half - 1)
        else lower_bound_loop data key fuel first half
      | none => first

/-- The call `std::lower_bound(data.begin(), data.end(), key, comp)`: the
position of the iterator it returns. -/
def lower_bound [LT K] [DecidableRel (LT.lt : K → K → Prop)]
    (data : List (K × V)) (key : K) : Nat :=
  lower_bound_loop data key data.length 0 data.length

/-- The call `v.insert(it, value)` of `std::vector`: `value` is placed at
position `it` and the elements from there on move one slot to the right. -/
def vector_insert {A : Type} (v : List A) (it : Nat) (value : A) : List A :=
  v.take it ++ value :: v.drop it

/-- The call `v.erase(it)` of `std::vector`: the element at position `it` is
removed and the elements after it move one slot to the left. -/
def vector_erase {A : Type} (v : List A) (it : Nat) : List A :=
  v.eraseIdx it

/-- The implicit default constructor: `data_` starts empty. -/
def new : SortedVectorMap K V := { data_ := [] }

/-- Embeds `empty()`. -/
def empty (self : SortedVectorMap K V) : Bool := self.data_.isEmpty

/-- Embeds `size()`. -/
def size (self : SortedVectorMap K V) : Nat := self.data_.length

/-- Embeds `begin()`: the position of the first pair. -/
def begin_ (_self : SortedVectorMap K V) : Nat := 0

/-- Embeds `end()` and `data_.end()` / `data_.cend()`: the position one past
the last pair. -/
def end_ (self : SortedVectorMap K V) : Nat := self.data_.length

/-- The key `it->first` at position `it`, if `it` is inside `data_`. -/
def first (self : SortedVectorMap K V) (it : Nat) : Option K :=
  self.data_[it]?.map Prod.fst

/-- The value `it->second` at position `it`, if `it` is inside `data_`. -/
def second (self : SortedVectorMap K V) (it : Nat) : Option V :=
  self.data_[it]?.map Prod.snd

/-- Embeds `lower(key)` (both overloads). -/
def lower [LT K] [DecidableRel (LT.lt : K → K → Prop)]
    (self : SortedVectorMap K V) (key : K) : Nat :=
  lower_bound self.data_ key

/-- Embeds `find(key)` (both overloads):
`if (it != data_.end() && it->first == key) return it; return data_.end();`. -/
def find [LT K] [DecidableRel (LT.lt : K → K → Prop)] [DecidableEq K]
    (self : SortedVectorMap K V) (key : K) : Nat :=
  let it := self.lower key
  if it ≠ self.end_ ∧ self.first it = some key then it else self.end_

/-- Embeds `contains(key)`. -/
def contains [LT K] [DecidableRel (LT.lt : K → K → Prop)] [DecidableEq K]
    (self : SortedVectorMap K V) (key : K) : Bool :=
  self.find key != self.end_

/-- Embeds `at(key)` (both overloads).  `find` returns `end()` or a position
inside `data_` (`find_inside`), so the dereference after the test always has a
pair to read; the last branch is never taken. -/
def at_ [LT K] [DecidableRel (LT.lt : K → K → Prop)] [DecidableEq K]
    (self : SortedVectorMap K V) (key : K) : Except Exception V :=
  let it := self.find key
  if it = self.end_ then
    .error (.out_of_range "key not found")
  else
    match self.second it with
    | some v => .ok v
    | none => .error (.out_of_range "key not found")

/-- Embeds `operator[](key)`: the value referred to by the returned reference
and the object afterwards.  `V{}` is `default`. -/
def subscript [LT K] [DecidableRel (LT.lt : K → K → Prop)] [DecidableEq K] [Inhabited V]
    (self : SortedVectorMap K V) (key : K) : V × SortedVectorMap K V :=
  let it := self.lower key
  if it = self.end_ ∨ self.first it ≠ some key then
    let next : SortedVectorMap K V := { data_ := vector_insert self.data_ it (key, default) }
    ((next.second it).getD default, next)
  else
    ((self.second it).getD default, self)

/-- Embeds `insert(key, value)`: the returned flag and the object afterwards. -/
def insert [LT K] [DecidableRel (LT.lt : K → K → Prop)] [DecidableEq K]
    (self : SortedVectorMap K V) (key : K) (value : V) : Bool × SortedVectorMap K V :=
  let it := self.lower key
  if it ≠ self.end_ ∧ self.first it = some key then (false, self)
  else (true, { data_ := vector_insert self.data_ it (key, value) })

/-- Embeds `erase(key)`: the returned flag and the object afterwards. -/
def erase [LT K] [DecidableRel (LT.lt : K → K → Prop)] [DecidableEq K]
    (self : SortedVectorMap K V) (key : K) : Bool × SortedVectorMap K V :=
  let it := self.find key
  if it = self.end_ then (false, self)
  else (true, { data_ := vector_erase self.data_ it })

/-- The pairs met when iterating from `begin()` to `end()`. -/
def iterate (self : SortedVectorMap K V) : List (K × V) :=
  (List.range (self.end_ - self.begin_)).filterMap fun i => self.data_[self.begin_ + i]?

/-- The keys met when iterating from `begin()` to `end()`. -/
def keys (self : SortedVectorMap K V) : List K := self.iterate.map Prod.fst

/-- The keys are strictly ascending: each key is below every later key. -/
def Ascending [LT K] (self : SortedVectorMap K V) : Prop :=
  (self.data_.map Prod.fst).Pairwise (· < ·)

instance [LT K] [DecidableRel (LT.lt : K → K → Prop)] (self : SortedVectorMap K V) :
    Decidable self.Ascending := by
  unfold Ascending
  infer_instance

/-- The calls that change a map. -/
inductive Call (K V : Type) where
  | insert (key : K) (value : V)
  | erase (key : K)
  | subscript (key : K)
  deriving DecidableEq, Repr

/-- One call on the object: the object afterwards. -/
def call [LT K] [DecidableRel (LT.lt : K → K → Prop)] [DecidableEq K] [Inhabited V]
    (self : SortedVectorMap K V) : Call K V → SortedVectorMap K V
  | .insert key value => (self.insert key value).2
  | .erase key => (self.erase key).2
  | .subscript key => (self.subscript key).2

/-- A finite sequence of calls, left to right. -/
def run [LT K] [DecidableRel (LT.lt : K → K → Prop)] [DecidableEq K] [Inhabited V]
    (self : SortedVectorMap K V) : List (Call K V) → SortedVectorMap K V
  | [] => self
  | c :: cs => run (self.call c) cs

/-- A key type of two fields whose `operator<` compares `major` only and whose
`operator==` compares both fields: `<` is a strict weak order, and two keys
that are distinct under `==` can be equivalent under `<`. -/
structure FieldKey where
  major : Nat
  minor : Nat
  deriving DecidableEq, Repr

instance : LT FieldKey := ⟨fun a b => a.major < b.major⟩

instance : DecidableRel (LT.lt : FieldKey → FieldKey → Prop) :=
  fun a b => inferInstanceAs (Decidable (a.major < b.major))

/-- The calls `insert` and `erase`, the two a membership count is about. -/
inductive Update (K V : Type) where
  | insert (key : K) (value : V)
  | erase (key : K)
  deriving DecidableEq, Repr

/-- One `insert` or `erase` call: the returned flag and the object afterwards. -/
def update [LT K] [DecidableRel (LT.lt : K → K → Prop)] [DecidableEq K]
    (self : SortedVectorMap K V) : Update K V → Bool × SortedVectorMap K V
  | .insert key value => self.insert key value
  | .erase key => self.erase key

/-- A finite sequence of `insert` and `erase` calls, left to right: the final
object and the log of each call with the flag it returned. -/
def updates [LT K] [DecidableRel (LT.lt : K → K → Prop)] [DecidableEq K]
    (self : SortedVectorMap K V) : List (Update K V) → SortedVectorMap K V × List (Update K V × Bool)
  | [] => (self, [])
  | c :: cs =>
    let r := self.update c
    let rest := updates r.2 cs
    (rest.1, (c, r.1) :: rest.2)

/-- Whether a log entry is an `insert(k, _)` call that returned true. -/
def is_insert_true [DecidableEq K] (k : K) : Update K V × Bool → Bool
  | (.insert key _, flag) => decide (key = k) && flag
  | (.erase _, _) => false

/-- Whether a log entry is an `erase(k)` call that returned true. -/
def is_erase_true [DecidableEq K] (k : K) : Update K V × Bool → Bool
  | (.insert _ _, _) => false
  | (.erase key, flag) => decide (key = k) && flag

end SortedVectorMap

/-! ## `small_vector.hpp` -/

/-- A value of the pointer `data_`: the address of the member array `inline_`,
or a block obtained from `::operator new`, kept together with its slots (the
vector that holds the pointer is the only owner of the block). -/
inductive Pointer (T : Type) where
  | inline_ptr
  | heap (block : List (Option T))
  deriving DecidableEq, Repr

/-- The data members of `template <class T, std::size_t N> class SmallVector`.
A storage slot is `none` while it is raw storage and `some x` while it holds a
live object `x`. -/
structure SmallVector (T : Type) (N : Nat) where
  inline_ : List (Option T)
  data_ : Pointer T
  size_ : Nat
  cap_ : Nat
  deriving DecidableEq, Repr

namespace SmallVector

variable {T : Type} {N : Nat}

/-- The number of slots of `Storage inline_[(N > 0 ? N : 1)]`. -/
def inline_slots (N : Nat) : Nat := if N > 0 then N else 1

/-- The default constructor `SmallVector() noexcept : data_(inline_ptr()),
size_(0), cap_(N) {}`; `inline_` starts as raw storage. -/
def new : SmallVector T N :=
  { inline_ := List.replicate (inline_slots N) none
    data_ := .inline_ptr
    size_ := 0
    cap_ := N }

/-- Embeds `using_inline()`: `data_ == inline_ptr()`. -/
def using_inline (self : SmallVector T N) : Bool :=
  match self.data_ with
  | .inline_ptr => true
  | .heap _ => false

/-- The slots `data_` points to. -/
def slots (self : SmallVector T N) : List (Option T) :=
  match self.data_ with
  | .inline_ptr => self.inline_
  | .heap block => block

/-- The object after the slots `data_` points to have become `b`. -/
def with_slots (self : SmallVector T N) (b : List (Option T)) : SmallVector T N :=
  match self.data_ with
  | .inline_ptr => { self with inline_ := b }
  | .heap _ => { self with data_ := .heap b }

/-- The expression `data_[i]` read as a value: the live object in slot `i`, and
`none` when the slot is raw or outside the storage (the read is undefined). -/
def load (self : SmallVector T N) (i : Nat) : Option T := (self.slots[i]?).join

/-- The loop `for (i = 0; i < n; ++i) new (dst + i) T(src[i]);` on slots, with
`T(src[i])` or `T(std::move(src[i]))`: both leave the source slot live and give
the destination slot the same value. -/
def copy_slots (dst src : List (Option T)) : Nat → List (Option T)
  | 0 => dst
  | i + 1 => (copy_slots dst src i).set i (src[i]?).join

/-- The loop `for (i = from; i < to; ++i) p[i].~T();` on slots. -/
def destroy_slots (b : List (Option T)) (from_ : Nat) : Nat → List (Option T)
  | 0 => b
  | to_ + 1 => if from_ ≤ to_ then (destroy_slots b from_ to_).set to_ none else b

/-- Embeds `destroy_range(from, to)`. -/
def destroy_range (self : SmallVector T N) (from_ to_ : Nat) : SmallVector T N :=
  self.with_slots (destroy_slots self.slots from_ to_)

/-- Embeds `size()`. -/
def size (self : SmallVector T N) : Nat := self.size_

/-- Embeds `capacity()`. -/
def capacity (self : SmallVector T N) : Nat := self.cap_

/-- Embeds `empty()`. -/
def empty (self : SmallVector T N) : Bool := self.size_ == 0

/-- Embeds `operator[](i)` (both overloads): the element referred to. -/
def subscript (self : SmallVector T N) (i : Nat) : Option T := self.load i

/-- Embeds `back()` (both overloads): `data_[size_ - 1]`. -/
def back (self : SmallVector T N) : Option T := self.load (self.size_ - 1)

/-- Embeds `clear()`. -/
def clear (self : SmallVector T N) : SmallVector T N :=
  { self.destroy_range 0 self.size_ with size_ := 0 }

/-- Embeds `next_capacity()`. -/
def next_capacity (self : SmallVector T N) : Nat :=
  if self.cap_ = 0 then 1 else self.cap_ * 2

/-- Embeds `grow_to(new_cap)` on a target where `sizeof(T) * new_cap` does not
wrap and `::operator new` returns the block: the elements are constructed in a
new block of `new_cap` raw slots, the old ones destroyed; an old heap block is
released (it is dropped with the old pointer), the inline array stays in the
object.  `grow_to_on` is the function on any target. -/
def grow_to (self : SmallVector T N) (new_cap : Nat) : SmallVector T N :=
  let new_data := copy_slots (List.replicate new_cap none) self.slots self.size_
  let destroyed := self.destroy_range 0 self.size_
  { destroyed with data_ := .heap new_data, cap_ := new_cap }

/-- Embeds `reserve(new_cap)`, with `grow_to` as above. -/
def reserve (self : SmallVector T N) (new_cap : Nat) : SmallVector T N :=
  if new_cap ≤ self.cap_ then self else self.grow_to new_cap

/-- Embeds `grow_to(new_cap)` on the target `t`.  The request
`sizeof(T) * new_cap` is a `size_t` product and wraps; `::operator new` throws
`std::bad_alloc` before any member is assigned when it cannot satisfy the
request; the block it returns has room for `bytes / sizeof(T)` objects, and a
construction past its end is undefined (the slots past the end do not exist,
`List.set` leaves the block as it is).  `cap_` becomes `new_cap` whatever the
block holds. -/
def grow_to_on (t : Target) (self : SmallVector T N) (new_cap : Nat) :
    Except Exception (SmallVector T N) :=
  let bytes := (t.sizeof_T * new_cap) % SIZE_MODULUS
  if t.heap_bytes < bytes then
    .error .bad_alloc
  else
    let new_data := copy_slots (List.replicate (bytes / t.sizeof_T) none) self.slots self.size_
    let destroyed := self.destroy_range 0 self.size_
    .ok { destroyed with data_ := .heap new_data, cap_ := new_cap }

/-- Embeds `reserve(new_cap)` on the target `t`. -/
def reserve_on (t : Target) (self : SmallVector T N) (new_cap : Nat) :
    Except Exception (SmallVector T N) :=
  if new_cap ≤ self.cap_ then .ok self else self.grow_to_on t new_cap

/-- What the reference argument of `push_back` and `emplace_back` refers to when
the call is made: an object outside the vector, with its value, or the vector's
own element `data_[i]`, as in `v.push_back(v[i])`. -/
inductive Arg (T : Type) where
  | object (x : T)
  | element (i : Nat)
  deriving DecidableEq, Repr

/-- The value read through the argument where `emplace_back` constructs the new
element, which is after its `reserve`; `self` is the vector when the call is
made.  A reference to the vector's own element points into the storage of that
moment: when `size_ == cap_` the `reserve` has replaced the storage, `grow_to`
has moved the element out, destroyed it and released the block, and the read
is undefined (the destroyed slot holds no object). -/
def read_arg (self : SmallVector T N) : Arg T → Option T
  | .object x => some x
  | .element i =>
    if self.size_ = self.cap_ then ((destroy_slots self.slots 0 self.size_)[i]?).join
    else self.load i

/-- Embeds `emplace_back(args...)` with one argument, the reference `arg`: the
element referred to by the returned reference and the object afterwards. -/
def emplace_back (self : SmallVector T N) (arg : Arg T) : Option T × SmallVector T N :=
  let grown := if self.size_ = self.cap_ then self.reserve self.next_capacity else self
  let built := grown.with_slots (grown.slots.set grown.size_ (self.read_arg arg))
  let next : SmallVector T N := { built with size_ := built.size_ + 1 }
  (next.load (next.size_ - 1), next)

/-- Embeds `push_back(const T&)` and `push_back(T&&)` with the argument as a
reference. -/
def push_back_ref (self : SmallVector T N) (arg : Arg T) : SmallVector T N :=
  (self.emplace_back arg).2

/-- Embeds `push_back(const T&)` and `push_back(T&&)` with an argument that
refers to an object of value `x` outside the vector. -/
def push_back (self : SmallVector T N) (x : T) : SmallVector T N :=
  (self.emplace_back (.object x)).2

/-- Embeds `pop_back()`. -/
def pop_back (self : SmallVector T N) : SmallVector T N :=
  if self.size_ = 0 then self
  else
    let destroyed := self.with_slots (self.slots.set (self.size_ - 1) none)
    { destroyed with size_ := destroyed.size_ - 1 }

/-- The copy constructor `SmallVector(const SmallVector& other)`: the new
object.  `other` is `const` and is not part of the result. -/
def copy_ctor (other : SmallVector T N) : SmallVector T N :=
  let self : SmallVector T N := (new : SmallVector T N).reserve other.size_
  let built := self.with_slots (copy_slots self.slots other.slots other.size_)
  { built with size_ := other.size_ }

/-- The move constructor `SmallVector(SmallVector&& other)`: the new object and
`other` afterwards. -/
def move_ctor (other : SmallVector T N) : SmallVector T N × SmallVector T N :=
  let self : SmallVector T N := new
  if other.using_inline then
    let built := self.with_slots (copy_slots self.slots other.slots other.size_)
    ({ built with size_ := other.size_ }, other.clear)
  else
    ({ self with data_ := other.data_, size_ := other.size_, cap_ := other.cap_ },
     { other with data_ := .inline_ptr, size_ := 0, cap_ := N })

/-- The body of `operator=(SmallVector&& other)` after the test
`this == &other` has failed: `*this` and `other` afterwards.  The old heap
block of `*this` is released; it is dropped when `data_` is assigned. -/
def move_assign_from (self other : SmallVector T N) : SmallVector T N × SmallVector T N :=
  let destroyed := self.destroy_range 0 self.size_
  if other.using_inline then
    let reset : SmallVector T N := { destroyed with data_ := .inline_ptr, cap_ := N, size_ := 0 }
    let built := reset.with_slots (copy_slots reset.slots other.slots other.size_)
    ({ built with size_ := other.size_ }, other.clear)
  else
    ({ destroyed with data_ := other.data_, size_ := other.size_, cap_ := other.cap_ },
     { other with data_ := .inline_ptr, size_ := 0, cap_ := N })

/-- The body of `swap(SmallVector& other)` after the test `this == &other` has
failed: `*this` and `other` afterwards.  `tmp` is a local object, distinct from
both, so the two move assignments run their bodies; `tmp` is destroyed at the
end. -/
def swap_with (self other : SmallVector T N) : SmallVector T N × SmallVector T N :=
  let r1 := move_ctor other
  let tmp := r1.1
  let r2 := move_assign_from r1.2 self
  let r3 := move_assign_from r2.2 tmp
  (r3.1, r2.1)

/-- The body of `operator=(const SmallVector& other)` after the test
`this == &other` has failed: `*this` afterwards.  `tmp` is a local object. -/
def copy_assign_from (self other : SmallVector T N) : SmallVector T N :=
  let tmp := copy_ctor other
  (swap_with self tmp).1

/-- The objects of a program, by address. -/
abbrev Objects (T : Type) (N : Nat) := Nat → SmallVector T N

/-- Embeds `operator=(const SmallVector& other)` on the object at address
`this`, with `other` the object at address `other`. -/
def copy_assign (objs : Objects T N) (this other : Nat) : Objects T N :=
  if this = other then objs
  else Function.update objs this (copy_assign_from (objs this) (objs other))

/-- Embeds `operator=(SmallVector&& other)` on the object at address `this`. -/
def move_assign (objs : Objects T N) (this other : Nat) : Objects T N :=
  if this = other then objs
  else
    let r := move_assign_from (objs this) (objs other)
    Function.update (Function.update objs this r.1) other r.2

/-- Embeds `swap(SmallVector& other)` on the object at address `this`. -/
def swap (objs : Objects T N) (this other : Nat) : Objects T N :=
  if this = other then objs
  else
    let r := swap_with (objs this) (objs other)
    Function.update (Function.update objs this r.1) other r.2

/-- A vector holds the elements `es`: its size is their number, `data_[i]` is
`es[i]` for every `i` (raw or outside the storage from `size_` on), and the
storage bookkeeping is consistent. -/
structure Holds (v : SmallVector T N) (es : List T) : Prop where
  size_eq : v.size_ = es.length
  load_eq : ∀ i, v.load i = es[i]?
  size_le : v.size_ ≤ v.cap_
  cap_le : v.cap_ ≤ v.slots.length
  inline_len : v.inline_.length = inline_slots N
  inline_cap : v.using_inline = true → v.cap_ = N
  heap_cap : v.using_inline = false →
    N < v.cap_ ∧ v.inline_ = List.replicate (inline_slots N) none

/-- The calls on one vector that involve no other vector. -/
inductive Call (T : Type) where
  | push_back (x : T)
  | pop_back
  | clear
  | reserve (new_cap : Nat)
  deriving DecidableEq, Repr

/-- One call on the object: the object afterwards. -/
def call (self : SmallVector T N) : Call T → SmallVector T N
  | .push_back x => self.push_back x
  | .pop_back => self.pop_back
  | .clear => self.clear
  | .reserve new_cap => self.reserve new_cap

/-- A finite sequence of calls, left to right. -/
def run (self : SmallVector T N) : List (Call T) → SmallVector T N
  | [] => self
  | c :: cs => run (self.call c) cs

/-- The states a vector goes through under a sequence of calls, the first one
included. -/
def states (self : SmallVector T N) : List (Call T) → List (SmallVector T N)
  | [] => [self]
  | c :: cs => self :: states (self.call c) cs

/-- The vectors a program can have: made by a constructor and changed by the
public member functions.  Assignment and `swap` of an object with itself
return at once and give no new state. -/
inductive Reachable : SmallVector T N → Prop where
  | default_ctor : Reachable new
  | copy_ctor {other : SmallVector T N} : Reachable other → Reachable (copy_ctor other)
  | move_ctor_new {other : SmallVector T N} : Reachable other → Reachable (move_ctor other).1
  | move_ctor_source {other : SmallVector T N} : Reachable other → Reachable (move_ctor other).2
  | push_back {v : SmallVector T N} (x : T) : Reachable v → Reachable (v.push_back x)
  | pop_back {v : SmallVector T N} : Reachable v → Reachable v.pop_back
  | clear {v : SmallVector T N} : Reachable v → Reachable v.clear
  | reserve {v : SmallVector T N} (new_cap : Nat) : Reachable v → Reachable (v.reserve new_cap)
  | copy_assign {v other : SmallVector T N} :
      Reachable v → Reachable other → Reachable (copy_assign_from v other)
  | move_assign_target {v other : SmallVector T N} :
      Reachable v → Reachable other → Reachable (move_assign_from v other).1
  | move_assign_source {v other : SmallVector T N} :
      Reachable v → Reachable other → Reachable (move_assign_from v other).2
  | swap_this {v other : SmallVector T N} :
      Reachable v → Reachable other → Reachable (swap_with v other).1
  | swap_other {v other : SmallVector T N} :
      Reachable v → Reachable other → Reachable (swap_with v other).2

/-- The loop of `copy_slots` with a counter of element constructions: every
round evaluates one `new (dst + i) T(...)`, a copy or move construction of
`T`, and adds one to the count. -/
def copy_slots_counted (dst src : List (Option T)) : Nat → List (Option T) × Nat
  | 0 => (dst, 0)
  | i + 1 =>
    let r := copy_slots_counted dst src i
    (r.1.set i (src[i]?).join, r.2 + 1)

/-- The move constructor with the number of element constructions it performs:
the new object, `other` afterwards, and the count.  Only the loop constructs
elements; `other.clear()` calls destructors, and the heap branch assigns
pointers and sizes. -/
def move_ctor_counted (other : SmallVector T N) :
    (SmallVector T N × SmallVector T N) × Nat :=
  let self : SmallVector T N := new
  if other.using_inline then
    let r := copy_slots_counted self.slots other.slots other.size_
    let built := self.with_slots r.1
    (({ built with size_ := other.size_ }, other.clear), r.2)
  else
    (({ self with data_ := other.data_, size_ := other.size_, cap_ := other.cap_ },
      { other with data_ := .inline_ptr, size_ := 0, cap_ := N }), 0)

/-- The body of `operator=(SmallVector&& other)` after the test
`this == &other` has failed, with the number of element constructions it
performs.  `destroy_range` and `other.clear()` call destructors only. -/
def move_assign_from_counted (self other : SmallVector T N) :
    (SmallVector T N × SmallVector T N) × Nat :=
  let destroyed := self.destroy_range 0 self.size_
  if other.using_inline then
    let reset : SmallVector T N := { destroyed with data_ := .inline_ptr, cap_ := N, size_ := 0 }
    let r := copy_slots_counted reset.slots other.slots other.size_
    let built := reset.with_slots r.1
    (({ built with size_ := other.size_ }, other.clear), r.2)
  else
    (({ destroyed with data_ := other.data_, size_ := other.size_, cap_ := other.cap_ },
      { other with data_ := .inline_ptr, size_ := 0, cap_ := N }), 0)

/-- Embeds `operator=(SmallVector&& other)` on the object at address `this`,
with the number of element constructions it performs: none when it returns at
the test `this == &other`. -/
def move_assign_counted (objs : Objects T N) (this other : Nat) : Objects T N × Nat :=
  if this = other then (objs, 0)
  else
    let r := move_assign_from_counted (objs this) (objs other)
    (Function.update (Function.update objs this r.1.1) other r.1.2, r.2)

end SmallVector

/-! ## Ring buffer: auxiliary facts -/

namespace RingBuffer

variable {T : Type}

theorem add_mod_inj {c h i j : Nat} (hi : i < c) (hj : j < c)
    (e : (h + i) % c = (h + j) % c) : i = j := by
  have h1 : i ≡ j [MOD c] := Nat.ModEq.add_left_cancel' h e
  have h2 : i % c = j % c := h1
  rwa [Nat.mod_eq_of_lt hi, Nat.mod_eq_of_lt hj] at h2

theorem succ_mod_add (c h i : Nat) : ((h + 1) % c + i) % c = (h + (i + 1)) % c := by
  rw [Nat.add_mod, Nat.mod_mod, ← Nat.add_mod]
  congr 1
  omega

theorem back_index {c h n : Nat} (hc : 0 < c) (hn : 0 < n) :
    ((h + n) % c + c - 1) % c = (h + (n - 1)) % c := by
  have e : (h + n) % c + c - 1 = (h + n) % c + (c - 1) := by omega
  rw [e, Nat.add_mod, Nat.mod_mod, ← Nat.add_mod]
  have e2 : h + n + (c - 1) = h + (n - 1) + c := by omega
  rw [e2, Nat.add_mod_right]

theorem Inv.tail_lt {C : Nat} {self : RingBuffer T} (h : Inv C self) :
    self.tail_ < self.cap_ := by
  rw [h.tail_eq]
  exact Nat.mod_lt _ h.cap_pos

theorem new_ok [Inhabited T] {C : Nat} (hC : 0 < C) :
    (new C : Except Exception (RingBuffer T)) = .ok (init C) := by
  simp [new, init, Nat.pos_iff_ne_zero.mp hC]

theorem Abs.of_init [Inhabited T] {C : Nat} (hC : 0 < C) :
    Abs C (init C : RingBuffer T) [] := by
  refine ⟨⟨rfl, hC, by simp [init], hC, by simp [init], Nat.zero_le _⟩, rfl, ?_⟩
  intro i hi
  exact absurd hi (Nat.not_lt_zero _)

theorem Abs.push_step {C : Nat} {self : RingBuffer T} {L : List T} (h : Abs C self L)
    (hlt : self.size_ < self.cap_) (value : T) :
    Abs C (advance_tail_ { self with buf_ := self.buf_.set self.tail_ value }) (L ++ [value]) := by
  have hi := h.inv
  have hlen := h.len
  refine ⟨⟨hi.cap_eq, hi.cap_pos, ?_, hi.head_lt, ?_, ?_⟩, ?_, ?_⟩
  · simp [advance_tail_, hi.buf_len]
  · simp only [advance_tail_]
    rw [hi.tail_eq, Nat.add_mod, Nat.mod_mod, ← Nat.add_mod, Nat.add_assoc]
  · simp only [advance_tail_]; omega
  · simp [advance_tail_, h.len]
  · intro i hlt2
    simp only [advance_tail_] at hlt2 ⊢
    rcases Nat.lt_or_ge i self.size_ with hlt3 | hge
    · have hne : self.tail_ ≠ (self.head_ + i) % self.cap_ := by
        rw [hi.tail_eq]
        intro e
        have := add_mod_inj (by omega) (by omega) e
        omega
      rw [List.getElem?_set_ne hne, h.slot i hlt3, List.getElem?_append_left (by omega)]
    · have e : i = self.size_ := by omega
      subst e
      rw [← hi.tail_eq, List.getElem?_set_eq_of_lt _ (by rw [hi.buf_len]; exact hi.tail_lt)]
      rw [List.getElem?_append_right (by omega)]
      simp [h.len]

theorem Abs.pop_step {C : Nat} {self : RingBuffer T} {x : T} {L : List T}
    (h : Abs C self (x :: L)) : Abs C (advance_head_ self) L := by
  have hi := h.inv
  have hlen : L.length + 1 = self.size_ := h.len
  refine ⟨⟨hi.cap_eq, hi.cap_pos, hi.buf_len, Nat.mod_lt _ hi.cap_pos, ?_, ?_⟩, ?_, ?_⟩
  · simp only [advance_head_]
    rw [succ_mod_add, hi.tail_eq]
    congr 2
    omega
  · simp only [advance_head_]
    have := hi.size_le
    omega
  · simp only [advance_head_]; omega
  · intro i hlt
    simp only [advance_head_] at hlt ⊢
    rw [succ_mod_add, h.slot (i + 1) (by omega)]
    simp

theorem Abs.call_step {C : Nat} {self : RingBuffer T} {L : List T} (h : Abs C self L)
    (c : Call T) :
    Abs C (self.call c).1 (fifoCall C L c).1 ∧
      (self.call c).2.accepted = (fifoCall C L c).2 := by
  have hi := h.inv
  have hlen := h.len
  have hC := hi.cap_eq
  have hle := hi.size_le
  cases c with
  | push value =>
    by_cases hf : self.size_ = self.cap_
    · have hn : ¬ L.length < C := by omega
      simpa [call, push, full, fifoCall, hf, hn, Outcome.accepted] using h
    · have hn : L.length < C := by omega
      have := h.push_step (by omega) value
      simpa [call, push, full, fifoCall, hf, hn, Outcome.accepted] using this
  | try_push value =>
    by_cases hf : self.size_ = self.cap_
    · have hn : ¬ L.length < C := by omega
      simpa [call, try_push, full, fifoCall, hf, hn, Outcome.accepted] using h
    · have hn : L.length < C := by omega
      have := h.push_step (by omega) value
      simpa [call, try_push, full, fifoCall, hf, hn, Outcome.accepted] using this
  | pop =>
    cases L with
    | nil =>
      have hz : self.size_ = 0 := by simpa using hlen.symm
      simpa [call, pop, empty, fifoCall, hz, Outcome.accepted] using h
    | cons x rest =>
      have hz : self.size_ ≠ 0 := by
        have : rest.length + 1 = self.size_ := hlen
        omega
      simpa [call, pop, empty, fifoCall, hz, Outcome.accepted] using h.pop_step
  | try_pop =>
    cases L with
    | nil =>
      have hz : self.size_ = 0 := by simpa using hlen.symm
      simpa [call, try_pop, empty, fifoCall, hz, Outcome.accepted] using h
    | cons x rest =>
      have hz : self.size_ ≠ 0 := by
        have : rest.length + 1 = self.size_ := hlen
        omega
      simpa [call, try_pop, empty, fifoCall, hz, Outcome.accepted] using h.pop_step

theorem Abs.run_steps {C : Nat} (calls : List (Call T)) :
    ∀ {self : RingBuffer T} {L : List T}, Abs C self L →
      Abs C (self.run calls).1 (fifoRun C L calls).1 ∧
        (self.run calls).2.map Outcome.accepted = (fifoRun C L calls).2 := by
  induction calls with
  | nil => intro self L h; exact ⟨h, rfl⟩
  | cons c cs ih =>
    intro self L h
    obtain ⟨h1, h2⟩ := h.call_step c
    obtain ⟨h3, h4⟩ := ih h1
    exact ⟨h3, by simp [run, fifoRun, h2, h4]⟩

theorem Abs.observe [Inhabited T] {C : Nat} {self : RingBuffer T} {L : List T}
    (h : Abs C self L) :
    self.size = L.length ∧
      ∀ hne : L ≠ [], self.front = .ok (L.head hne) ∧ self.back = .ok (L.getLast hne) := by
  have hi := h.inv
  have hlen := h.len
  refine ⟨hlen.symm, fun hne => ?_⟩
  have hpos : 0 < L.length := List.length_pos.mpr hne
  have hz : self.size_ ≠ 0 := by omega
  constructor
  · have h0 := h.slot 0 (by omega)
    rw [Nat.add_zero, Nat.mod_eq_of_lt hi.head_lt] at h0
    simp only [front, empty, beq_iff_eq, hz, if_false, List.getD_eq_getElem?_getD, h0]
    rw [List.getElem?_eq_getElem hpos]
    cases L with
    | nil => exact absurd rfl hne
    | cons x rest => rfl
  · have h1 := h.slot (self.size_ - 1) (by omega)
    have hidx : (self.tail_ + self.cap_ - 1) % self.cap_
        = (self.head_ + (self.size_ - 1)) % self.cap_ := by
      rw [hi.tail_eq]
      exact back_index hi.cap_pos (by omega)
    simp only [back, empty, beq_iff_eq, hz, if_false, List.getD_eq_getElem?_getD, hidx, h1]
    rw [List.getElem?_eq_getElem (by omega), List.getLast_eq_getElem]
    simp [hlen]

theorem Inv.of_run [Inhabited T] {C : Nat} (hC : 0 < C) (calls : List (Call T)) :
    Inv C ((init C : RingBuffer T).run calls).1 :=
  ((Abs.run_steps calls (Abs.of_init hC)).1).inv

/-! ## Ring buffer: the claims -/

/-- C1: a ring buffer constructed with capacity `C > 0` and driven by any finite
sequence of `push`/`try_push`/`pop`/`try_pop` calls behaves as the bounded FIFO
list `L`: every call is accepted exactly when the list accepts it, afterwards
`size()` is the length of `L`, and when `L` is non-empty `front()` is its first
and `back()` its last element. -/
theorem refines_bounded_fifo [Inhabited T] (C : Nat) (hC : 0 < C) (calls : List (Call T)) :
    ∃ rb0 : RingBuffer T, new C = .ok rb0 ∧
      (rb0.run calls).2.map Outcome.accepted = (fifoRun C [] calls).2 ∧
      (rb0.run calls).1.size = (fifoRun C [] calls).1.length ∧
      ∀ hne : (fifoRun C [] calls).1 ≠ [],
        (rb0.run calls).1.front = .ok ((fifoRun C [] calls).1.head hne) ∧
        (rb0.run calls).1.back = .ok ((fifoRun C [] calls).1.getLast hne) := by
  refine ⟨_, new_ok hC, ?_⟩
  obtain ⟨h1, h2⟩ := Abs.run_steps calls (Abs.of_init hC)
  exact ⟨h2, h1.observe⟩

/-- Witness of C1 on a capacity-3 buffer whose head and tail both wrap around
the end of the storage. -/
theorem refines_bounded_fifo_witness :
    0 < 3 ∧ ∃ rb0 : RingBuffer Nat, new 3 = .ok rb0 ∧
      (rb0.run [.push 1, .push 2, .push 3, .try_push 4, .pop, .push 4, .try_pop, .pop,
          .pop, .pop, .push 5]).2.map Outcome.accepted
        = (fifoRun 3 [] [.push 1, .push 2, .push 3, .try_push 4, .pop, .push 4, .try_pop,
          .pop, .pop, .pop, .push 5]).2 ∧
      (rb0.run [.push 1, .push 2, .push 3, .try_push 4, .pop, .push 4, .try_pop, .pop,
          .pop, .pop, .push 5]).1.size
        = (fifoRun 3 [] [.push 1, .push 2, .push 3, .try_push 4, .pop, .push 4, .try_pop,
          .pop, .pop, .pop, .push 5]).1.length ∧
      ∀ hne : (fifoRun 3 [] [.push 1, .push 2, .push 3, .try_push 4, .pop, .push 4,
          .try_pop, .pop, .pop, .pop, .push 5]).1 ≠ [],
        (rb0.run [.push 1, .push 2, .push 3, .try_push 4, .pop, .push 4, .try_pop, .pop,
          .pop, .pop, .push 5]).1.front
          = .ok ((fifoRun 3 [] [.push 1, .push 2, .push 3, .try_push 4, .pop, .push 4,
              .try_pop, .pop, .pop, .pop, .push 5]).1.head hne) ∧
        (rb0.run [.push 1, .push 2, .push 3, .try_push 4, .pop, .push 4, .try_pop, .pop,
          .pop, .pop, .push 5]).1.back
          = .ok ((fifoRun 3 [] [.push 1, .push 2, .push 3, .try_push 4, .pop, .push 4,
              .try_pop, .pop, .pop, .pop, .push 5]).1.getLast hne) :=
  ⟨by decide, refines_bounded_fifo 3 (by decide) _⟩

/-- C2: on a ring buffer of capacity `C`, `push(v)` throws and `try_push(v)`
returns false exactly when `size() == C`, and then the object is unchanged; when
`size() < C` both succeed, `v` is stored at the tail slot, `tail_` becomes
`(tail_ + 1) % C`, `size_` grows by exactly one, and `head_`, `cap_` and every
other slot are unchanged. -/
theorem push_contract (C : Nat) (self : RingBuffer T) (h : Inv C self) (v : T) :
    ((∃ e, self.push v = .error e) ↔ self.size = C) ∧
    ((self.try_push v).1 = false ↔ self.size = C) ∧
    (self.size = C →
      self.push v = .error (.runtime_error "RingBuffer is full") ∧
      (self.call (.push v)).1 = self ∧
      self.try_push v = (false, self)) ∧
    (self.size < C →
      ∃ next : RingBuffer T, self.push v = .ok next ∧ self.try_push v = (true, next) ∧
        next.buf_[self.tail_]? = some v ∧
        next.tail_ = (self.tail_ + 1) % C ∧
        next.size_ = self.size_ + 1 ∧
        next.head_ = self.head_ ∧
        next.cap_ = self.cap_ ∧
        next.buf_.length = self.buf_.length ∧
        ∀ i, i ≠ self.tail_ → next.buf_[i]? = self.buf_[i]?) := by
  have hC := h.cap_eq
  have hle := h.size_le
  have htl : self.tail_ < self.buf_.length := by rw [h.buf_len]; exact h.tail_lt
  subst hC
  refine ⟨?_, ?_, ?_, ?_⟩
  · by_cases hf : self.size_ = self.cap_ <;> simp [push, full, size, hf]
  · by_cases hf : self.size_ = self.cap_ <;> simp [try_push, full, size, hf]
  · intro hf
    have hf2 : self.size_ = self.cap_ := hf
    simp [call, push, try_push, full, hf2]
  · intro hlt
    have hf : self.size_ ≠ self.cap_ := Nat.ne_of_lt hlt
    refine ⟨advance_tail_ { self with buf_ := self.buf_.set self.tail_ v },
      by simp [push, full, hf], by simp [try_push, full, hf], ?_, rfl, rfl, rfl, rfl,
      by simp [advance_tail_], ?_⟩
    · simp [advance_tail_, List.getElem?_set_eq_of_lt _ htl]
    · intro i hi
      simp [advance_tail_, List.getElem?_set_ne (Ne.symm hi)]

/-- Witness of C2 on a capacity-3 buffer holding two elements. -/
theorem push_contract_witness :
    Inv 3 ({ buf_ := [7, 8, 0], cap_ := 3, head_ := 0, tail_ := 2, size_ := 2 } : RingBuffer Nat) ∧
    ({ buf_ := [7, 8, 0], cap_ := 3, head_ := 0, tail_ := 2, size_ := 2 } : RingBuffer Nat).size < 3 ∧
      (∃ next : RingBuffer Nat,
        ({ buf_ := [7, 8, 0], cap_ := 3, head_ := 0, tail_ := 2, size_ := 2 } : RingBuffer Nat).push 9
          = .ok next ∧
        ({ buf_ := [7, 8, 0], cap_ := 3, head_ := 0, tail_ := 2, size_ := 2 } : RingBuffer Nat).try_push 9
          = (true, next) ∧
        next.buf_[2]? = some 9 ∧ next.tail_ = (2 + 1) % 3 ∧ next.size_ = 2 + 1 ∧
        next.head_ = 0 ∧ next.cap_ = 3 ∧ next.buf_.length = 3 ∧
        ∀ i, i ≠ 2 → next.buf_[i]? = [7, 8, 0][i]?) :=
  ⟨⟨rfl, by decide, rfl, by decide, by decide, by decide⟩, by decide,
   (push_contract 3 { buf_ := [7, 8, 0], cap_ := 3, head_ := 0, tail_ := 2, size_ := 2 }
      ⟨rfl, by decide, rfl, by decide, by decide, by decide⟩ 9).2.2.2 (by decide)⟩

/-- C3: `pop()`, `front()` and `back()` throw exactly when `size_ == 0`, and
`try_pop()` returns false exactly then; a rejected call leaves the object
unchanged; an accepted `pop()`/`try_pop()` sets `head_` to `(head_ + 1) % cap_`,
lowers `size_` by exactly one and leaves `tail_`, `cap_` and the storage
unchanged.  `front()` and `back()` are observers: their embedding has no object
in its result. -/
theorem pop_front_back_contract [Inhabited T] (self : RingBuffer T) :
    ((∃ e, self.pop = .error e) ↔ self.size_ = 0) ∧
    ((∃ e, self.front = .error e) ↔ self.size_ = 0) ∧
    ((∃ e, self.back = .error e) ↔ self.size_ = 0) ∧
    ((self.try_pop).1 = false ↔ self.size_ = 0) ∧
    (self.size_ = 0 →
      self.pop = .error (.runtime_error "RingBuffer is empty") ∧
      self.front = .error (.runtime_error "RingBuffer is empty") ∧
      self.back = .error (.runtime_error "RingBuffer is empty") ∧
      (self.call .pop).1 = self ∧
      self.try_pop = (false, self)) ∧
    (self.size_ ≠ 0 →
      ∃ next : RingBuffer T, self.pop = .ok next ∧ self.try_pop = (true, next) ∧
        next.head_ = (self.head_ + 1) % self.cap_ ∧
        next.size_ + 1 = self.size_ ∧
        next.tail_ = self.tail_ ∧
        next.cap_ = self.cap_ ∧
        next.buf_ = self.buf_) := by
  refine ⟨?_, ?_, ?_, ?_, ?_, ?_⟩
  · by_cases hz : self.size_ = 0 <;> simp [pop, empty, hz]
  · by_cases hz : self.size_ = 0 <;> simp [front, empty, hz]
  · by_cases hz : self.size_ = 0 <;> simp [back, empty, hz]
  · by_cases hz : self.size_ = 0 <;> simp [try_pop, empty, hz]
  · intro hz
    simp [call, pop, front, back, try_pop, empty, hz]
  · intro hz
    refine ⟨advance_head_ self, by simp [pop, empty, hz], by simp [try_pop, empty, hz],
      rfl, ?_, rfl, rfl, rfl⟩
    simp only [advance_head_]
    omega

/-- Witness of C3 on a capacity-3 buffer holding two elements, with `head_` on
the last slot. -/
theorem pop_front_back_contract_witness :
    ({ buf_ := [8, 0, 7], cap_ := 3, head_ := 2, tail_ := 1, size_ := 2 } : RingBuffer Nat).size_ ≠ 0 ∧
    ∃ next : RingBuffer Nat,
      ({ buf_ := [8, 0, 7], cap_ := 3, head_ := 2, tail_ := 1, size_ := 2 } : RingBuffer Nat).pop
        = .ok next ∧
      ({ buf_ := [8, 0, 7], cap_ := 3, head_ := 2, tail_ := 1, size_ := 2 } : RingBuffer Nat).try_pop
        = (true, next) ∧
      next.head_ = (2 + 1) % 3 ∧ next.size_ + 1 = 2 ∧ next.tail_ = 1 ∧ next.cap_ = 3 ∧
      next.buf_ = [8, 0, 7] :=
  ⟨by decide,
   (pop_front_back_contract
      ({ buf_ := [8, 0, 7], cap_ := 3, head_ := 2, tail_ := 1, size_ := 2 } : RingBuffer Nat)
      ).2.2.2.2.2 (by decide)⟩

theorem new_on_ok [Inhabited T] {t : Target} {C : Nat} (hC : 0 < C) (hm : C ≤ t.max_size)
    (hb : C * t.sizeof_T ≤ t.heap_bytes) :
    (new_on t C : Except Exception (RingBuffer T)) = .ok (init C) := by
  have h1 : ¬ t.max_size < C := by omega
  have h2 : ¬ t.heap_bytes < C * t.sizeof_T := by omega
  have h3 : ¬ C = 0 := by omega
  simp [new_on, vector_ctor, h1, h2, h3, init]

/-- C4, as amended: on any target, construction throws `std::invalid_argument`
if and only if the requested capacity is 0; it throws `std::length_error` when
the capacity exceeds `max_size()` of the storage vector and `std::bad_alloc`
when the storage cannot be allocated, both from the `buf_` initialiser; for
every other capacity `C > 0` it yields a queue with `capacity() == C`,
`size() == 0`, `empty()`, not `full()`, `head_ == tail_ == 0` and `C` storage
slots, and `cap_` is non-zero in every state reached from it, so every later
`% cap_` has a non-zero divisor. -/
theorem new_on_contract [Inhabited T] (t : Target) (C : Nat) :
    ((new_on t C : Except Exception (RingBuffer T))
        = .error (.invalid_argument "RingBuffer capacity must be > 0") ↔ C = 0) ∧
    (t.max_size < C →
      (new_on t C : Except Exception (RingBuffer T))
        = .error (.length_error "cannot create std::vector larger than max_size()")) ∧
    (C ≤ t.max_size → t.heap_bytes < C * t.sizeof_T →
      (new_on t C : Except Exception (RingBuffer T)) = .error .bad_alloc) ∧
    ((∃ e, (new_on t C : Except Exception (RingBuffer T)) = .error e) ↔
      (C = 0 ∨ t.max_size < C ∨ t.heap_bytes < C * t.sizeof_T)) ∧
    (0 < C → C ≤ t.max_size → C * t.sizeof_T ≤ t.heap_bytes →
      ∃ rb : RingBuffer T, new_on t C = .ok rb ∧ new C = .ok rb ∧
        rb.capacity = C ∧ rb.size = 0 ∧ rb.empty = true ∧ rb.full = false ∧
        rb.head_ = 0 ∧ rb.tail_ = 0 ∧ rb.buf_.length = C ∧
        ∀ calls : List (Call T), (rb.run calls).1.cap_ ≠ 0) := by
  have hlen : t.max_size < C →
      (new_on t C : Except Exception (RingBuffer T))
        = .error (.length_error "cannot create std::vector larger than max_size()") := by
    intro h
    simp [new_on, vector_ctor, h]
  have hbad : C ≤ t.max_size → t.heap_bytes < C * t.sizeof_T →
      (new_on t C : Except Exception (RingBuffer T)) = .error .bad_alloc := by
    intro h1 h2
    have h3 : ¬ t.max_size < C := by omega
    simp [new_on, vector_ctor, h2, h3]
  have hzero : (new_on t 0 : Except Exception (RingBuffer T))
      = .error (.invalid_argument "RingBuffer capacity must be > 0") := by
    simp [new_on, vector_ctor]
  refine ⟨?_, hlen, hbad, ?_, ?_⟩
  · constructor
    · intro h
      by_contra hz
      by_cases h1 : t.max_size < C
      · rw [hlen h1] at h
        cases h
      · by_cases h2 : t.heap_bytes < C * t.sizeof_T
        · rw [hbad (by omega) h2] at h
          cases h
        · rw [new_on_ok (Nat.pos_of_ne_zero hz) (by omega) (by omega)] at h
          cases h
    · intro hz
      subst hz
      exact hzero
  · constructor
    · rintro ⟨e, he⟩
      by_contra hn
      rw [new_on_ok (by omega) (by omega) (by omega)] at he
      cases he
    · rintro (hz | h1 | h2)
      · subst hz
        exact ⟨_, hzero⟩
      · exact ⟨_, hlen h1⟩
      · by_cases h1 : t.max_size < C
        · exact ⟨_, hlen h1⟩
        · exact ⟨_, hbad (by omega) h2⟩
  · intro hC hm hb
    refine ⟨init C, new_on_ok hC hm hb, new_ok hC, rfl, rfl, rfl, ?_, rfl, rfl, by simp [init], ?_⟩
    · have hne : ¬ 0 = C := by omega
      simp [full, init, hne]
    · intro calls
      exact Nat.pos_iff_ne_zero.mp (Inv.of_run hC calls).cap_pos

/-- Witness of C4 as amended: capacity 3 on a 64-bit target with `int`
elements. -/
theorem new_on_contract_witness :
    0 < 3 ∧ 3 ≤ lp64_int.max_size ∧ 3 * lp64_int.sizeof_T ≤ lp64_int.heap_bytes ∧
    ∃ rb : RingBuffer Nat, new_on lp64_int 3 = .ok rb ∧ new 3 = .ok rb ∧
      rb.capacity = 3 ∧ rb.size = 0 ∧ rb.empty = true ∧ rb.full = false ∧
      rb.head_ = 0 ∧ rb.tail_ = 0 ∧ rb.buf_.length = 3 ∧
      ∀ calls : List (Call Nat), (rb.run calls).1.cap_ ≠ 0 :=
  ⟨by decide, by decide, by decide,
   (new_on_contract lp64_int 3).2.2.2.2 (by decide) (by decide) (by decide)⟩

/-- C4 as stated fails for the capacity `SIZE_MAX` on a 64-bit target with
`int` elements: the capacity is positive, and construction does not succeed but
throws `std::length_error` from `buf_(capacity)`. -/
theorem new_on_contract_counterexample :
    0 < 2 ^ 64 - 1 ∧
    (new_on lp64_int (2 ^ 64 - 1) : Except Exception (RingBuffer Nat))
      = .error (.length_error "cannot create std::vector larger than max_size()") ∧
    ¬ ∃ rb : RingBuffer Nat, new_on lp64_int (2 ^ 64 - 1) = .ok rb := by
  have h : (new_on lp64_int (2 ^ 64 - 1) : Except Exception (RingBuffer Nat))
      = .error (.length_error "cannot create std::vector larger than max_size()") := by decide
  refine ⟨by decide, h, ?_⟩
  rintro ⟨rb, hrb⟩
  rw [h] at hrb
  cases hrb

/-- C5: in every state reached from a successfully constructed ring buffer of
capacity `C` through any finite sequence of `push`, `try_push`, `pop` and
`try_pop` calls, accepted or rejected: `size_ ≤ C`, `head_ < C`, `tail_ < C`,
`capacity()` is still `C`, the storage still has `C` slots, `empty()` holds iff
`size_ == 0` and `full()` holds iff `size_ == C`. -/
theorem reachable_invariant [Inhabited T] (C : Nat) (hC : 0 < C) (calls : List (Call T)) :
    ∃ rb0 : RingBuffer T, new C = .ok rb0 ∧
      0 ≤ (rb0.run calls).1.size_ ∧
      (rb0.run calls).1.size_ ≤ C ∧
      (rb0.run calls).1.head_ < C ∧
      (rb0.run calls).1.tail_ < C ∧
      (rb0.run calls).1.capacity = C ∧
      (rb0.run calls).1.buf_.length = C ∧
      ((rb0.run calls).1.empty = true ↔ (rb0.run calls).1.size_ = 0) ∧
      ((rb0.run calls).1.full = true ↔ (rb0.run calls).1.size_ = C) := by
  have h := Inv.of_run (T := T) hC calls
  have hc := h.cap_eq
  refine ⟨init C, new_ok hC, Nat.zero_le _, ?_, ?_, ?_, hc, ?_, ?_, ?_⟩
  · exact le_of_le_of_eq h.size_le hc
  · exact Nat.lt_of_lt_of_eq h.head_lt hc
  · exact Nat.lt_of_lt_of_eq h.tail_lt hc
  · exact h.buf_len.trans hc
  · simp [empty]
  · simp [full, hc]

/-- Witness of C5 on a capacity-2 buffer with rejected calls at both ends. -/
theorem reachable_invariant_witness :
    0 < 2 ∧ ∃ rb0 : RingBuffer Nat, new 2 = .ok rb0 ∧
      0 ≤ (rb0.run [.pop, .try_pop, .push 1, .push 2, .push 3, .try_push 4, .pop]).1.size_ ∧
      (rb0.run [.pop, .try_pop, .push 1, .push 2, .push 3, .try_push 4, .pop]).1.size_ ≤ 2 ∧
      (rb0.run [.pop, .try_pop, .push 1, .push 2, .push 3, .try_push 4, .pop]).1.head_ < 2 ∧
      (rb0.run [.pop, .try_pop, .push 1, .push 2, .push 3, .try_push 4, .pop]).1.tail_ < 2 ∧
      (rb0.run [.pop, .try_pop, .push 1, .push 2, .push 3, .try_push 4, .pop]).1.capacity = 2 ∧
      (rb0.run [.pop, .try_pop, .push 1, .push 2, .push 3, .try_push 4, .pop]).1.buf_.length = 2 ∧
      ((rb0.run [.pop, .try_pop, .push 1, .push 2, .push 3, .try_push 4, .pop]).1.empty = true ↔
        (rb0.run [.pop, .try_pop, .push 1, .push 2, .push 3, .try_push 4, .pop]).1.size_ = 0) ∧
      ((rb0.run [.pop, .try_pop, .push 1, .push 2, .push 3, .try_push 4, .pop]).1.full = true ↔
        (rb0.run [.pop, .try_pop, .push 1, .push 2, .push 3, .try_push 4, .pop]).1.size_ = 2) :=
  ⟨by decide, reachable_invariant 2 (by decide) _⟩

end RingBuffer

/-! ## Sorted vector map: auxiliary facts -/

namespace SortedVectorMap

variable {K V : Type}

theorem lower_bound_loop_fuel [LT K] [DecidableRel (LT.lt : K → K → Prop)]
    (data : List (K × V)) (key : K) :
    ∀ (fuel more first len : Nat), len ≤ fuel → len ≤ more →
      lower_bound_loop data key fuel first len = lower_bound_loop data key more first len := by
  intro fuel
  induction fuel with
  | zero =>
    intro more first len h1 _
    have hz : len = 0 := by omega
    subst hz
    cases more <;> simp [lower_bound_loop]
  | succ fuel ih =>
    intro more first len h1 h2
    cases more with
    | zero =>
      have hz : len = 0 := by omega
      subst hz
      simp [lower_bound_loop]
    | succ more =>
      simp only [lower_bound_loop]
      by_cases hz : len = 0
      · simp [hz]
      · have hhalf : len / 2 < len := Nat.div_lt_self (Nat.pos_of_ne_zero hz) (by decide)
        simp only [hz, if_false]
        cases data[first + len / 2]? with
        | none => rfl
        | some p =>
          simp only
          rw [ih more (first + len / 2 + 1) (len - len / 2 - 1) (by omega) (by omega),
            ih more first (len / 2) (by omega) (by omega)]

theorem lower_bound_loop_bounds [LT K] [DecidableRel (LT.lt : K → K → Prop)]
    (data : List (K × V)) (key : K) :
    ∀ (fuel first len : Nat),
      first ≤ lower_bound_loop data key fuel first len ∧
      lower_bound_loop data key fuel first len ≤ first + len := by
  intro fuel
  induction fuel with
  | zero => intro first len; simp [lower_bound_loop]
  | succ fuel ih =>
    intro first len
    simp only [lower_bound_loop]
    by_cases hz : len = 0
    · simp [hz]
    · have hhalf : len / 2 < len := Nat.div_lt_self (Nat.pos_of_ne_zero hz) (by decide)
      simp only [hz, if_false]
      cases data[first + len / 2]? with
      | none => simp
      | some p =>
        simp only
        have h1 := ih (first + len / 2 + 1) (len - len / 2 - 1)
        have h2 := ih first (len / 2)
        split <;> omega

theorem sorted_getElem? [Preorder K] {data : List (K × V)}
    (hs : (data.map Prod.fst).Pairwise (· < ·)) {i j : Nat} {p q : K × V} (hij : i < j)
    (hp : data[i]? = some p) (hq : data[j]? = some q) : p.1 < q.1 := by
  rw [List.pairwise_map, List.pairwise_iff_getElem] at hs
  obtain ⟨hi, rfl⟩ := List.getElem?_eq_some.mp hp
  obtain ⟨hj, rfl⟩ := List.getElem?_eq_some.mp hq
  exact hs i j hi hj hij

theorem lower_bound_loop_spec [LinearOrder K] {data : List (K × V)} (key : K)
    (hs : (data.map Prod.fst).Pairwise (· < ·)) :
    ∀ (fuel first len : Nat), len ≤ fuel → first + len ≤ data.length →
      (∀ j p, j < first → data[j]? = some p → p.1 < key) →
      (∀ j p, first + len ≤ j → data[j]? = some p → ¬ p.1 < key) →
      (∀ j p, j < lower_bound_loop data key fuel first len → data[j]? = some p → p.1 < key) ∧
      (∀ j p, lower_bound_loop data key fuel first len ≤ j → data[j]? = some p →
        ¬ p.1 < key) := by
  intro fuel
  induction fuel with
  | zero =>
    intro first len h1 _ hlo hhi
    have hz : len = 0 := by omega
    subst hz
    exact ⟨by simpa [lower_bound_loop] using hlo, by simpa [lower_bound_loop] using hhi⟩
  | succ fuel ih =>
    intro first len h1 hlen hlo hhi
    simp only [lower_bound_loop]
    by_cases hz : len = 0
    · subst hz
      exact ⟨by simpa using hlo, by simpa using hhi⟩
    · have hhalf : len / 2 < len := Nat.div_lt_self (Nat.pos_of_ne_zero hz) (by decide)
      simp only [hz, if_false]
      have hmid : first + len / 2 < data.length := by omega
      rw [List.getElem?_eq_getElem hmid]
      simp only
      have hm : data[first + len / 2]? = some data[first + len / 2] :=
        List.getElem?_eq_getElem hmid
      by_cases hc : data[first + len / 2].1 < key
      · simp only [hc, if_true]
        apply ih (first + len / 2 + 1) (len - len / 2 - 1) (by omega) (by omega)
        · intro j p hj hp
          rcases Nat.lt_or_ge j (first + len / 2) with hlt | hge
          · exact lt_trans (sorted_getElem? hs hlt hp hm) hc
          · have e : j = first + len / 2 := by omega
            subst e
            rw [hm] at hp
            cases hp
            exact hc
        · intro j p hj hp
          exact hhi j p (by omega) hp
      · simp only [hc, if_false]
        apply ih first (len / 2) (by omega) (by omega) hlo
        intro j p hj hp
        rcases Nat.eq_or_lt_of_le hj with e | hlt
        · rw [← e, hm] at hp
          cases hp
          exact hc
        · intro hpk
          exact hc (lt_trans (sorted_getElem? hs hlt hm hp) hpk)

theorem lower_bound_le [LT K] [DecidableRel (LT.lt : K → K → Prop)]
    (data : List (K × V)) (key : K) : lower_bound data key ≤ data.length := by
  have := (lower_bound_loop_bounds data key data.length 0 data.length).2
  simpa [lower_bound] using this

theorem find_inside [LT K] [DecidableRel (LT.lt : K → K → Prop)] [DecidableEq K]
    (self : SortedVectorMap K V) (key : K) (h : self.find key ≠ self.end_) :
    ∃ v, self.second (self.find key) = some v := by
  have hle : self.lower key ≤ self.end_ := lower_bound_le self.data_ key
  by_cases hc : self.lower key ≠ self.end_ ∧ self.first (self.lower key) = some key
  · have e : self.find key = self.lower key := by
      simp only [find]
      rw [if_pos hc]
    have hlt : self.lower key < self.data_.length := Nat.lt_of_le_of_ne hle hc.1
    rw [e, second, List.getElem?_eq_getElem hlt]
    exact ⟨_, rfl⟩
  · have e : self.find key = self.end_ := by
      simp only [find]
      rw [if_neg hc]
    exact absurd e h

theorem lower_bound_take [LinearOrder K] {data : List (K × V)} (key : K)
    (hs : (data.map Prod.fst).Pairwise (· < ·)) :
    ∀ p ∈ data.take (lower_bound data key), p.1 < key := by
  intro p hp
  obtain ⟨j, hj, rfl⟩ := List.mem_take_iff_getElem.mp hp
  have h := (lower_bound_loop_spec key hs data.length 0 data.length (Nat.le_refl _)
    (by omega) (fun j p hj _ => absurd hj (Nat.not_lt_zero _))
    (fun j p hj hp => by
      have := (List.getElem?_eq_some.mp hp).1
      omega)).1
  exact h j _ (by have e : lower_bound data key =
      lower_bound_loop data key data.length 0 data.length := rfl
                  omega)
    (List.getElem?_eq_getElem (by omega))

theorem lower_bound_drop [LinearOrder K] {data : List (K × V)} (key : K)
    (hs : (data.map Prod.fst).Pairwise (· < ·)) :
    ∀ p ∈ data.drop (lower_bound data key), key ≤ p.1 := by
  intro p hp
  obtain ⟨j, hj, rfl⟩ := List.mem_drop_iff_getElem.mp hp
  have h := (lower_bound_loop_spec key hs data.length 0 data.length (Nat.le_refl _)
    (by omega) (fun j p hj _ => absurd hj (Nat.not_lt_zero _))
    (fun j p hj hp => by
      have := (List.getElem?_eq_some.mp hp).1
      omega)).2
  exact not_lt.mp (h (lower_bound data key + j) _ (by
      have e : lower_bound data key = lower_bound_loop data key data.length 0 data.length := rfl
      omega)
    (List.getElem?_eq_getElem (by omega)))

theorem lower_split [LinearOrder K] {data : List (K × V)} (key : K)
    (hs : (data.map Prod.fst).Pairwise (· < ·)) :
    ∃ l r, data = l ++ r ∧ l.length = lower_bound data key ∧ (∀ p ∈ l, p.1 < key) ∧
      ((∀ p ∈ r, key < p.1) ∨ ∃ v rest, r = (key, v) :: rest ∧ ∀ p ∈ rest, key < p.1) := by
  refine ⟨data.take (lower_bound data key), data.drop (lower_bound data key),
    (List.take_append_drop _ _).symm, ?_, lower_bound_take key hs, ?_⟩
  · rw [List.length_take]
    exact Nat.min_eq_left (lower_bound_le data key)
  · have hd := lower_bound_drop key hs
    have hsplit := List.take_append_drop (lower_bound data key) data
    cases hr : data.drop (lower_bound data key) with
    | nil => left; intro p hp; cases hp
    | cons q rest =>
      rw [hr] at hd hsplit
      rw [← hsplit] at hs
      simp only [List.map_append, List.map_cons, List.pairwise_append, List.pairwise_cons,
        List.mem_map, forall_exists_index, and_imp, forall_apply_eq_imp_iff₂] at hs
      have hq : key ≤ q.1 := hd q (List.mem_cons_self _ _)
      have hrest : ∀ p ∈ rest, q.1 < p.1 := hs.2.1.1
      rcases eq_or_lt_of_le hq with e | hlt
      · right
        refine ⟨q.2, rest, ?_, fun p hp => e ▸ hrest p hp⟩
        rw [e]
      · left
        intro p hp
        rcases List.mem_cons.mp hp with rfl | hp
        · exact hlt
        · exact lt_trans hlt (hrest p hp)

theorem getElem?_split {A : Type} (l r : List A) : (l ++ r)[l.length]? = r.head? := by
  rw [List.getElem?_append_right (Nat.le_refl _), Nat.sub_self]
  cases r <;> simp

theorem miss_of_split [LinearOrder K] {self : SortedVectorMap K V} {key : K}
    {l r : List (K × V)} (hd : self.data_ = l ++ r) (hl : l.length = self.lower key)
    (hr : ∀ p ∈ r, key < p.1) :
    ¬ (self.lower key ≠ self.end_ ∧ self.first (self.lower key) = some key) := by
  rintro ⟨_, h2⟩
  rw [first, ← hl, hd, getElem?_split] at h2
  cases r with
  | nil => simp at h2
  | cons q rest =>
    simp only [List.head?_cons, Option.map_some', Option.some.injEq] at h2
    exact absurd h2 (ne_of_gt (hr q (List.mem_cons_self _ _)))

theorem hit_of_split [LinearOrder K] {self : SortedVectorMap K V} {key : K} {v : V}
    {l rest : List (K × V)} (hd : self.data_ = l ++ (key, v) :: rest)
    (hl : l.length = self.lower key) :
    (self.lower key ≠ self.end_ ∧ self.first (self.lower key) = some key) ∧
      self.second (self.lower key) = some v := by
  refine ⟨⟨?_, ?_⟩, ?_⟩
  · rw [← hl, end_, hd]
    simp
  · rw [first, ← hl, hd, getElem?_split]
    rfl
  · rw [second, ← hl, hd, getElem?_split]
    rfl

theorem mem_keys_of_split [LinearOrder K] {data l r : List (K × V)} {key : K}
    (hd : data = l ++ r) (hl : ∀ p ∈ l, p.1 < key) (hr : ∀ p ∈ r, key < p.1) :
    key ∉ data.map Prod.fst := by
  rw [hd]
  simp only [List.map_append, List.mem_append, List.mem_map, not_or, not_exists, not_and]
  exact ⟨fun p hp e => absurd e (ne_of_lt (hl p hp)),
    fun p hp e => absurd e (ne_of_gt (hr p hp))⟩

theorem mem_of_split [LinearOrder K] {data l rest : List (K × V)} {key : K} {v w : V}
    (hd : data = l ++ (key, v) :: rest) (hl : ∀ p ∈ l, p.1 < key)
    (hr : ∀ p ∈ rest, key < p.1) : (key, w) ∈ data ↔ w = v := by
  rw [hd]
  simp only [List.mem_append, List.mem_cons, Prod.mk.injEq, true_and]
  constructor
  · rintro (h | h | h)
    · exact absurd (hl _ h) (lt_irrefl _)
    · exact h
    · exact absurd (hr _ h) (lt_irrefl _)
  · intro h
    exact Or.inr (Or.inl h)

theorem iterate_eq (self : SortedVectorMap K V) : self.iterate = self.data_ := by
  apply List.ext_getElem?
  intro n
  simp only [iterate, begin_, end_, Nat.sub_zero, Nat.zero_add]
  induction self.data_ using List.reverseRecOn generalizing n with
  | nil => simp
  | append_singleton xs x ih =>
    rw [List.length_append, List.length_singleton, List.range_succ, List.filterMap_append]
    have e : List.filterMap (fun i => (xs ++ [x])[i]?) (List.range xs.length)
        = List.filterMap (fun i => xs[i]?) (List.range xs.length) := by
      apply List.filterMap_congr
      intro i hi
      rw [List.getElem?_append_left (List.mem_range.mp hi)]
    have e2 : List.filterMap (fun i => xs[i]?) (List.range xs.length) = xs := by
      apply List.ext_getElem?
      exact ih
    rw [e, e2]
    simp

theorem vector_insert_split {A : Type} (l r : List A) (x : A) :
    vector_insert (l ++ r) l.length x = l ++ x :: r := by
  simp [vector_insert]

theorem vector_erase_split {A : Type} (l r : List A) (x : A) :
    vector_erase (l ++ x :: r) l.length = l ++ r := by
  rw [vector_erase, List.eraseIdx_eq_take_drop_succ]
  simp

theorem pairwise_insert_split [LinearOrder K] {l r : List (K × V)} {key : K} (value : V)
    (hs : ((l ++ r).map Prod.fst).Pairwise (· < ·))
    (hl : ∀ p ∈ l, p.1 < key) (hr : ∀ p ∈ r, key < p.1) :
    ((l ++ (key, value) :: r).map Prod.fst).Pairwise (· < ·) := by
  simp only [List.map_append, List.map_cons, List.pairwise_append, List.pairwise_cons,
    List.mem_map, List.mem_cons, forall_exists_index, and_imp, forall_apply_eq_imp_iff₂,
    forall_eq_or_imp] at hs ⊢
  exact ⟨hs.1, ⟨hr, hs.2.1⟩, fun p hp => ⟨hl p hp, hs.2.2 p hp⟩⟩

theorem pairwise_erase_split [LinearOrder K] {l r : List (K × V)} {x : K × V}
    (hs : ((l ++ x :: r).map Prod.fst).Pairwise (· < ·)) :
    ((l ++ r).map Prod.fst).Pairwise (· < ·) := by
  simp only [List.map_append, List.map_cons, List.pairwise_append, List.pairwise_cons,
    List.mem_map, List.mem_cons, forall_exists_index, and_imp, forall_apply_eq_imp_iff₂,
    forall_eq_or_imp] at hs ⊢
  exact ⟨hs.1, hs.2.1.2, fun p hp => (hs.2.2 p hp).2⟩

theorem insert_miss [LinearOrder K] {self : SortedVectorMap K V} {key : K} (value : V)
    {l r : List (K × V)} (hd : self.data_ = l ++ r) (hl : l.length = self.lower key)
    (hr : ∀ p ∈ r, key < p.1) :
    self.insert key value = (true, { data_ := l ++ (key, value) :: r }) := by
  have hmiss := miss_of_split hd hl hr
  simp only [insert, hmiss, if_false]
  rw [← hl, hd, vector_insert_split]

theorem insert_hit [LinearOrder K] {self : SortedVectorMap K V} {key : K} (value : V) {v : V}
    {l rest : List (K × V)} (hd : self.data_ = l ++ (key, v) :: rest)
    (hl : l.length = self.lower key) :
    self.insert key value = (false, self) := by
  have hhit := (hit_of_split hd hl).1
  simp only [insert]
  rw [if_pos hhit]

theorem subscript_miss [LinearOrder K] [Inhabited V] {self : SortedVectorMap K V} {key : K}
    {l r : List (K × V)} (hd : self.data_ = l ++ r) (hl : l.length = self.lower key)
    (hr : ∀ p ∈ r, key < p.1) :
    self.subscript key = (default, { data_ := l ++ (key, default) :: r }) := by
  have hmiss := miss_of_split hd hl hr
  have hcond : self.lower key = self.end_ ∨ self.first (self.lower key) ≠ some key := by
    by_cases h1 : self.lower key = self.end_
    · exact Or.inl h1
    · exact Or.inr fun h2 => hmiss ⟨h1, h2⟩
  simp only [subscript, hcond, if_true]
  rw [← hl, hd, vector_insert_split, second, getElem?_split]
  rfl

theorem subscript_hit [LinearOrder K] [Inhabited V] {self : SortedVectorMap K V} {key : K}
    {v : V} {l rest : List (K × V)} (hd : self.data_ = l ++ (key, v) :: rest)
    (hl : l.length = self.lower key) :
    self.subscript key = (v, self) := by
  have hhit := hit_of_split hd hl
  have hcond : ¬ (self.lower key = self.end_ ∨ self.first (self.lower key) ≠ some key) :=
    fun h => h.elim hhit.1.1 fun h2 => h2 hhit.1.2
  simp only [subscript, hcond, if_false, hhit.2, Option.getD_some]

theorem find_miss [LinearOrder K] {self : SortedVectorMap K V} {key : K}
    {l r : List (K × V)} (hd : self.data_ = l ++ r) (hl : l.length = self.lower key)
    (hr : ∀ p ∈ r, key < p.1) : self.find key = self.end_ := by
  have hmiss := miss_of_split hd hl hr
  simp only [find, hmiss, if_false]

theorem find_hit [LinearOrder K] {self : SortedVectorMap K V} {key : K} {v : V}
    {l rest : List (K × V)} (hd : self.data_ = l ++ (key, v) :: rest)
    (hl : l.length = self.lower key) :
    self.find key = l.length ∧ self.find key ≠ self.end_ ∧
      self.second (self.find key) = some v := by
  have hhit := hit_of_split hd hl
  have e : self.find key = self.lower key := by
    simp only [find]
    rw [if_pos hhit.1]
  rw [e]
  exact ⟨hl.symm, hhit.1.1, hhit.2⟩

theorem erase_miss [LinearOrder K] {self : SortedVectorMap K V} {key : K}
    {l r : List (K × V)} (hd : self.data_ = l ++ r) (hl : l.length = self.lower key)
    (hr : ∀ p ∈ r, key < p.1) : self.erase key = (false, self) := by
  simp only [erase, find_miss hd hl hr, if_true]

theorem erase_hit [LinearOrder K] {self : SortedVectorMap K V} {key : K} {v : V}
    {l rest : List (K × V)} (hd : self.data_ = l ++ (key, v) :: rest)
    (hl : l.length = self.lower key) :
    self.erase key = (true, { data_ := l ++ rest }) := by
  have h := find_hit hd hl
  simp only [erase, h.2.1, if_false]
  rw [h.1, hd, vector_erase_split]

theorem lookup_miss [LinearOrder K] {self : SortedVectorMap K V} {key : K}
    {l r : List (K × V)} (hd : self.data_ = l ++ r) (hl : l.length = self.lower key)
    (hr : ∀ p ∈ r, key < p.1) :
    self.contains key = false ∧ self.at_ key = .error (.out_of_range "key not found") := by
  have h := find_miss hd hl hr
  constructor
  · simp [contains, h]
  · simp only [at_, h, if_true]

theorem lookup_hit [LinearOrder K] {self : SortedVectorMap K V} {key : K} {v : V}
    {l rest : List (K × V)} (hd : self.data_ = l ++ (key, v) :: rest)
    (hl : l.length = self.lower key) :
    self.contains key = true ∧ self.at_ key = .ok v := by
  have h := find_hit hd hl
  constructor
  · simp [contains, h.2.1]
  · simp only [at_, h.2.1, if_false, h.2.2]

theorem split_of_ascending [LinearOrder K] {self : SortedVectorMap K V}
    (hs : self.Ascending) (key : K) :
    (∃ l r, self.data_ = l ++ r ∧ l.length = self.lower key ∧ (∀ p ∈ l, p.1 < key) ∧
        (∀ p ∈ r, key < p.1)) ∨
    (∃ l v rest, self.data_ = l ++ (key, v) :: rest ∧ l.length = self.lower key ∧
        (∀ p ∈ l, p.1 < key) ∧ (∀ p ∈ rest, key < p.1)) := by
  obtain ⟨l, r, hd, hl, hlt, hr | ⟨v, rest, hr, hgt⟩⟩ := lower_split key hs
  · exact Or.inl ⟨l, r, hd, hl, hlt, hr⟩
  · exact Or.inr ⟨l, v, rest, hr ▸ hd, hl, hlt, hgt⟩

theorem contains_iff [LinearOrder K] {self : SortedVectorMap K V} (hs : self.Ascending)
    (key : K) : self.contains key = true ↔ ∃ p ∈ self.data_, p.1 = key := by
  rcases split_of_ascending hs key with ⟨l, r, hd, hl, hlt, hgt⟩ | ⟨l, w, rest, hd, hl, hlt, hgt⟩
  · rw [(lookup_miss hd hl hgt).1]
    have hn := mem_keys_of_split hd hlt hgt
    constructor
    · intro h; cases h
    · rintro ⟨p, hp, e⟩
      exact absurd (List.mem_map.mpr ⟨p, hp, e⟩) hn
  · rw [(lookup_hit hd hl).1]
    refine ⟨fun _ => ⟨(key, w), ?_, rfl⟩, fun _ => rfl⟩
    rw [hd]
    simp

theorem ascending_insert [LinearOrder K] {self : SortedVectorMap K V} (hs : self.Ascending)
    (key : K) (value : V) : (self.insert key value).2.Ascending := by
  rcases split_of_ascending hs key with ⟨l, r, hd, hl, hlt, hgt⟩ | ⟨l, w, rest, hd, hl, hlt, hgt⟩
  · rw [insert_miss value hd hl hgt]
    have hs2 : ((l ++ r).map Prod.fst).Pairwise (· < ·) := hd ▸ hs
    exact pairwise_insert_split value hs2 hlt hgt
  · rw [insert_hit value hd hl]
    exact hs

theorem ascending_subscript [LinearOrder K] [Inhabited V] {self : SortedVectorMap K V}
    (hs : self.Ascending) (key : K) : (self.subscript key).2.Ascending := by
  rcases split_of_ascending hs key with ⟨l, r, hd, hl, hlt, hgt⟩ | ⟨l, w, rest, hd, hl, hlt, hgt⟩
  · rw [subscript_miss hd hl hgt]
    have hs2 : ((l ++ r).map Prod.fst).Pairwise (· < ·) := hd ▸ hs
    exact pairwise_insert_split default hs2 hlt hgt
  · rw [subscript_hit hd hl]
    exact hs

theorem ascending_erase [LinearOrder K] {self : SortedVectorMap K V} (hs : self.Ascending)
    (key : K) : (self.erase key).2.Ascending := by
  rcases split_of_ascending hs key with ⟨l, r, hd, hl, hlt, hgt⟩ | ⟨l, w, rest, hd, hl, hlt, hgt⟩
  · rw [erase_miss hd hl hgt]
    exact hs
  · rw [erase_hit hd hl]
    have hs2 : ((l ++ (key, w) :: rest).map Prod.fst).Pairwise (· < ·) := hd ▸ hs
    exact pairwise_erase_split hs2

theorem ascending_run [LinearOrder K] [Inhabited V] (calls : List (Call K V)) :
    ∀ {self : SortedVectorMap K V}, self.Ascending → (self.run calls).Ascending := by
  induction calls with
  | nil => intro self hs; exact hs
  | cons c cs ih =>
    intro self hs
    apply ih
    cases c with
    | insert key value => exact ascending_insert hs key value
    | erase key => exact ascending_erase hs key
    | subscript key => exact ascending_subscript hs key

/-- C6: for a key type with a strict total order, after any finite interleaving
of `insert`, `erase` and `operator[]` calls on an empty map, iterating from
`begin()` to `end()` yields strictly ascending keys, so no key occurs twice. -/
theorem iteration_strictly_ascending [LinearOrder K] [Inhabited V] (calls : List (Call K V)) :
    ((new : SortedVectorMap K V).run calls).keys.Pairwise (· < ·) ∧
    ((new : SortedVectorMap K V).run calls).keys.Nodup := by
  have h0 : (new : SortedVectorMap K V).Ascending := List.Pairwise.nil
  have h := ascending_run calls h0
  have e : ((new : SortedVectorMap K V).run calls).keys
      = ((new : SortedVectorMap K V).run calls).data_.map Prod.fst := by
    rw [keys, iterate_eq]
  rw [e]
  exact ⟨h, List.Pairwise.imp ne_of_lt h⟩

/-- C10, as amended: for a key type whose `<` is a strict total order
consistent with `==`, on a map with strictly ascending keys, `m[k]` for an
absent `k` inserts the pair `(k, V{})` after all pairs with smaller keys and before all
pairs with larger keys, which keeps the keys ascending, grows `size()` by
exactly one, leaves every other pair unchanged and returns the default value;
for a present `k` it returns the stored value for `k` and leaves the map
unchanged. -/
theorem subscript_contract [LinearOrder K] [Inhabited V] (m : SortedVectorMap K V)
    (hs : m.Ascending) (k : K) :
    ((¬ ∃ p ∈ m.data_, p.1 = k) →
      ∃ l r, m.data_ = l ++ r ∧ (∀ p ∈ l, p.1 < k) ∧ (∀ p ∈ r, k < p.1) ∧
        m.subscript k = (default, { data_ := l ++ (k, default) :: r }) ∧
        (m.subscript k).2.size = m.size + 1 ∧
        (m.subscript k).2.Ascending) ∧
    (∀ v, (k, v) ∈ m.data_ → m.subscript k = (v, m)) := by
  have hasc := ascending_subscript hs k
  rcases split_of_ascending hs k with ⟨l, r, hd, hl, hlt, hgt⟩ | ⟨l, w, rest, hd, hl, hlt, hgt⟩
  · have hi := subscript_miss hd hl hgt
    refine ⟨fun _ => ⟨l, r, hd, hlt, hgt, hi, ?_, hasc⟩, ?_⟩
    · rw [hi, size, size, hd]; simp; omega
    · intro v hv
      exact absurd (List.mem_map.mpr ⟨(k, v), hv, rfl⟩) (mem_keys_of_split hd hlt hgt)
  · have hy : ∃ p ∈ m.data_, p.1 = k := ⟨(k, w), by rw [hd]; simp, rfl⟩
    refine ⟨fun h => absurd hy h, ?_⟩
    intro v hv
    rw [(mem_of_split hd hlt hgt).mp hv]
    exact subscript_hit hd hl

/-- Witness of C10 as amended: `m[5]` on a map without the key 5. -/
theorem subscript_contract_witness :
    (⟨[(2, 20), (8, 80)]⟩ : SortedVectorMap Nat Nat).Ascending ∧
    (¬ ∃ p ∈ (⟨[(2, 20), (8, 80)]⟩ : SortedVectorMap Nat Nat).data_, p.1 = 5) ∧
    ∃ l r, (⟨[(2, 20), (8, 80)]⟩ : SortedVectorMap Nat Nat).data_ = l ++ r ∧
      (∀ p ∈ l, p.1 < 5) ∧ (∀ p ∈ r, 5 < p.1) ∧
      (⟨[(2, 20), (8, 80)]⟩ : SortedVectorMap Nat Nat).subscript 5
        = (default, { data_ := l ++ (5, default) :: r }) ∧
      ((⟨[(2, 20), (8, 80)]⟩ : SortedVectorMap Nat Nat).subscript 5).2.size
        = (⟨[(2, 20), (8, 80)]⟩ : SortedVectorMap Nat Nat).size + 1 ∧
      ((⟨[(2, 20), (8, 80)]⟩ : SortedVectorMap Nat Nat).subscript 5).2.Ascending :=
  ⟨by decide, by decide,
   (subscript_contract ⟨[(2, 20), (8, 80)]⟩ (by decide) 5).1 (by decide)⟩

/-- C10 as stated fails for a key type whose `<` compares one field and whose
`==` compares two: the map holds the one key `(1, 0)`, so its keys are strictly
ascending; the key `(1, 1)` is absent; `m[(1, 1)]` inserts it in front of
`(1, 0)`, and the keys are no longer strictly ascending. -/
theorem subscript_contract_counterexample :
    (⟨[(⟨1, 0⟩, 10)]⟩ : SortedVectorMap FieldKey Nat).Ascending ∧
    (¬ ∃ p ∈ (⟨[(⟨1, 0⟩, 10)]⟩ : SortedVectorMap FieldKey Nat).data_, p.1 = ⟨1, 1⟩) ∧
    ((⟨[(⟨1, 0⟩, 10)]⟩ : SortedVectorMap FieldKey Nat).subscript ⟨1, 1⟩).2.data_
      = [(⟨1, 1⟩, 0), (⟨1, 0⟩, 10)] ∧
    ¬ ((⟨[(⟨1, 0⟩, 10)]⟩ : SortedVectorMap FieldKey Nat).subscript ⟨1, 1⟩).2.Ascending := by
  refine ⟨by decide, by decide, by decide, by decide⟩

/-! ## Sorted vector map: membership and call counts -/

theorem insert_flag_iff [LinearOrder K] {self : SortedVectorMap K V} (hs : self.Ascending)
    (key : K) (value : V) :
    (self.insert key value).1 = true ↔ ¬ ∃ p ∈ self.data_, p.1 = key := by
  rcases split_of_ascending hs key with ⟨l, r, hd, hl, hlt, hgt⟩ | ⟨l, w, rest, hd, hl, hlt, hgt⟩
  · have hn : ¬ ∃ p ∈ self.data_, p.1 = key := fun ⟨p, hp, e⟩ =>
      mem_keys_of_split hd hlt hgt (List.mem_map.mpr ⟨p, hp, e⟩)
    rw [insert_miss value hd hl hgt]
    simp [hn]
  · have hy : ∃ p ∈ self.data_, p.1 = key := ⟨(key, w), by rw [hd]; simp, rfl⟩
    rw [insert_hit value hd hl]
    simp [hy]

theorem erase_flag_iff [LinearOrder K] {self : SortedVectorMap K V} (hs : self.Ascending)
    (key : K) : (self.erase key).1 = true ↔ ∃ p ∈ self.data_, p.1 = key := by
  rcases split_of_ascending hs key with ⟨l, r, hd, hl, hlt, hgt⟩ | ⟨l, w, rest, hd, hl, hlt, hgt⟩
  · have hn : ¬ ∃ p ∈ self.data_, p.1 = key := fun ⟨p, hp, e⟩ =>
      mem_keys_of_split hd hlt hgt (List.mem_map.mpr ⟨p, hp, e⟩)
    rw [erase_miss hd hl hgt]
    simp [hn]
  · have hy : ∃ p ∈ self.data_, p.1 = key := ⟨(key, w), by rw [hd]; simp, rfl⟩
    rw [erase_hit hd hl]
    simp [hy]

theorem mem_keys_insert [LinearOrder K] {self : SortedVectorMap K V} (hs : self.Ascending)
    (key : K) (value : V) (k : K) :
    (∃ p ∈ (self.insert key value).2.data_, p.1 = k) ↔
      (k = key ∨ ∃ p ∈ self.data_, p.1 = k) := by
  rcases split_of_ascending hs key with ⟨l, r, hd, hl, hlt, hgt⟩ | ⟨l, w, rest, hd, hl, hlt, hgt⟩
  · rw [insert_miss value hd hl hgt, hd]
    constructor
    · rintro ⟨p, hp, e⟩
      rcases List.mem_append.mp hp with h | h
      · exact Or.inr ⟨p, List.mem_append_left _ h, e⟩
      · rcases List.mem_cons.mp h with h | h
        · left; rw [← e, h]
        · exact Or.inr ⟨p, List.mem_append_right _ h, e⟩
    · rintro (e | ⟨p, hp, e⟩)
      · exact ⟨(key, value), by simp, e.symm⟩
      · rcases List.mem_append.mp hp with h | h
        · exact ⟨p, List.mem_append_left _ h, e⟩
        · exact ⟨p, List.mem_append_right _ (List.mem_cons_of_mem _ h), e⟩
  · rw [insert_hit value hd hl]
    constructor
    · exact fun h => Or.inr h
    · rintro (e | h)
      · exact ⟨(key, w), by rw [hd]; simp, e.symm⟩
      · exact h

theorem mem_keys_erase [LinearOrder K] {self : SortedVectorMap K V} (hs : self.Ascending)
    (key k : K) :
    (∃ p ∈ (self.erase key).2.data_, p.1 = k) ↔ (k ≠ key ∧ ∃ p ∈ self.data_, p.1 = k) := by
  rcases split_of_ascending hs key with ⟨l, r, hd, hl, hlt, hgt⟩ | ⟨l, w, rest, hd, hl, hlt, hgt⟩
  · rw [erase_miss hd hl hgt]
    constructor
    · intro h
      refine ⟨fun e => ?_, h⟩
      obtain ⟨p, hp, e2⟩ := h
      exact mem_keys_of_split hd hlt hgt (List.mem_map.mpr ⟨p, hp, e2.trans e⟩)
    · exact fun h => h.2
  · rw [erase_hit hd hl, hd]
    constructor
    · rintro ⟨p, hp, e⟩
      refine ⟨fun e2 => ?_, ?_⟩
      · exact mem_keys_of_split rfl hlt hgt (List.mem_map.mpr ⟨p, hp, e.trans e2⟩)
      · rcases List.mem_append.mp hp with h | h
        · exact ⟨p, List.mem_append_left _ h, e⟩
        · exact ⟨p, List.mem_append_right _ (List.mem_cons_of_mem _ h), e⟩
    · rintro ⟨hne, p, hp, e⟩
      rcases List.mem_append.mp hp with h | h
      · exact ⟨p, List.mem_append_left _ h, e⟩
      · rcases List.mem_cons.mp h with h | h
        · exact absurd (by rw [← e, h]) hne
        · exact ⟨p, List.mem_append_right _ h, e⟩

theorem contains_eq_decide [LinearOrder K] {self : SortedVectorMap K V} (hs : self.Ascending)
    (k : K) : self.contains k = decide (∃ p ∈ self.data_, p.1 = k) := by
  rw [Bool.eq_iff_iff, contains_iff hs k]
  simp

theorem update_count [LinearOrder K] {self : SortedVectorMap K V} (hs : self.Ascending)
    (c : Update K V) (k : K) :
    (self.update c).2.Ascending ∧
      (if is_insert_true k (c, (self.update c).1) = true then 1 else 0)
          + (if self.contains k = true then 1 else 0)
        = (if is_erase_true k (c, (self.update c).1) = true then 1 else 0)
          + (if (self.update c).2.contains k = true then 1 else 0) := by
  cases c with
  | insert key value =>
    have hasc := ascending_insert hs key value
    refine ⟨hasc, ?_⟩
    have hf := insert_flag_iff hs key value
    have hm := mem_keys_insert hs key value k
    simp only [update, is_insert_true, is_erase_true, contains_eq_decide hs,
      contains_eq_decide hasc, Bool.and_eq_true, decide_eq_true_eq, hf, hm]
    by_cases hk : key = k
    · subst hk
      by_cases hp : ∃ p ∈ self.data_, p.1 = key <;> simp [hp]
    · have hk2 : ¬ k = key := fun e => hk e.symm
      by_cases hp : ∃ p ∈ self.data_, p.1 = k <;> simp [hp, hk, hk2]
  | erase key =>
    have hasc := ascending_erase hs key
    refine ⟨hasc, ?_⟩
    have hf := erase_flag_iff hs key
    have hm := mem_keys_erase hs key k
    simp only [update, is_insert_true, is_erase_true, contains_eq_decide hs,
      contains_eq_decide hasc, Bool.and_eq_true, decide_eq_true_eq, hf, hm]
    by_cases hk : key = k
    · subst hk
      by_cases hp : ∃ p ∈ self.data_, p.1 = key <;> simp [hp]
    · have hk2 : ¬ k = key := fun e => hk e.symm
      by_cases hp : ∃ p ∈ self.data_, p.1 = k <;> simp [hp, hk, hk2]

theorem updates_count [LinearOrder K] (k : K) (calls : List (Update K V)) :
    ∀ {self : SortedVectorMap K V}, self.Ascending →
      List.countP (is_insert_true k) (self.updates calls).2
          + (if self.contains k = true then 1 else 0)
        = List.countP (is_erase_true k) (self.updates calls).2
          + (if (self.updates calls).1.contains k = true then 1 else 0) := by
  induction calls with
  | nil => intro self _; simp [updates]
  | cons c cs ih =>
    intro self hs
    obtain ⟨hasc, hstep⟩ := update_count hs c k
    have hrest := ih hasc
    simp only [updates, List.countP_cons]
    omega

/-- C11, as amended: for a key type whose `<` is a strict total order consistent
with `==`, after any finite sequence of `insert` and `erase` calls on an
initially empty map, `contains(k)` is true if and only if the number of `insert(k, _)`
calls that returned true exceeds the number of `erase(k)` calls that returned
true. -/
theorem membership_counts [LinearOrder K] (calls : List (Update K V)) (k : K) :
    ((new : SortedVectorMap K V).updates calls).1.contains k = true ↔
      List.countP (is_erase_true k) ((new : SortedVectorMap K V).updates calls).2
        < List.countP (is_insert_true k) ((new : SortedVectorMap K V).updates calls).2 := by
  have h0 : (new : SortedVectorMap K V).Ascending := List.Pairwise.nil
  have h := updates_count k calls h0
  have hn : (new : SortedVectorMap K V).contains k = false := by
    simp [contains, find, lower, lower_bound, lower_bound_loop, new, end_]
  rw [hn] at h
  have h2 : List.countP (is_insert_true k) ((new : SortedVectorMap K V).updates calls).2
      = List.countP (is_erase_true k) ((new : SortedVectorMap K V).updates calls).2
        + (if ((new : SortedVectorMap K V).updates calls).1.contains k = true then 1 else 0) := by
    simpa using h
  by_cases hc : ((new : SortedVectorMap K V).updates calls).1.contains k = true
  · rw [if_pos hc] at h2
    constructor
    · intro _; omega
    · intro _; exact hc
  · rw [if_neg hc] at h2
    constructor
    · intro h3; exact absurd h3 hc
    · intro h3; omega

/-- C11 as stated fails for a key type whose `<` compares one field and whose
`==` compares two: on an empty map `insert((1, 0), _)` and `insert((1, 1), _)`
both return true, no `erase` is called, and `contains((1, 0))` is false
although one `insert((1, 0), _)` returned true and no `erase((1, 0))` did. -/
theorem membership_counts_counterexample :
    ((new : SortedVectorMap FieldKey Nat).updates
        [.insert ⟨1, 0⟩ 10, .insert ⟨1, 1⟩ 11]).2
      = [(.insert ⟨1, 0⟩ 10, true), (.insert ⟨1, 1⟩ 11, true)] ∧
    ((new : SortedVectorMap FieldKey Nat).updates
        [.insert ⟨1, 0⟩ 10, .insert ⟨1, 1⟩ 11]).1.contains ⟨1, 0⟩ = false ∧
    List.countP (is_erase_true ⟨1, 0⟩) ((new : SortedVectorMap FieldKey Nat).updates
        [.insert ⟨1, 0⟩ 10, .insert ⟨1, 1⟩ 11]).2
      < List.countP (is_insert_true ⟨1, 0⟩) ((new : SortedVectorMap FieldKey Nat).updates
        [.insert ⟨1, 0⟩ 10, .insert ⟨1, 1⟩ 11]).2 := by
  refine ⟨by decide, by decide, by decide⟩

end SortedVectorMap

/-! ## Small vector: auxiliary facts -/

namespace SmallVector

variable {T : Type} {N : Nat}

theorem join_set (b : List (Option T)) (j i : Nat) (x : Option T) :
    ((b.set j x)[i]?).join = if i = j ∧ j < b.length then x else (b[i]?).join := by
  rw [List.getElem?_set]
  by_cases h : j = i
  · subst h
    by_cases hl : j < b.length
    · simp [hl]
    · simp [hl, List.getElem?_eq_none (Nat.le_of_not_lt hl)]
  · have h2 : ¬ i = j := fun e => h e.symm
    simp [h, h2]

theorem join_replicate (n i : Nat) : (((List.replicate n none : List (Option T)))[i]?).join = none := by
  rw [List.getElem?_replicate]
  split <;> rfl

theorem slots_ext {a b : List (Option T)} (hl : a.length = b.length)
    (h : ∀ i : Nat, (a[i]?).join = (b[i]?).join) : a = b := by
  apply List.ext_getElem?
  intro i
  by_cases hi : i < a.length
  · have hb : i < b.length := hl ▸ hi
    have := h i
    rw [List.getElem?_eq_getElem hi, List.getElem?_eq_getElem hb] at this ⊢
    simpa using this
  · have hb : ¬ i < b.length := hl ▸ hi
    rw [List.getElem?_eq_none (Nat.le_of_not_lt hi), List.getElem?_eq_none (Nat.le_of_not_lt hb)]

theorem length_copy_slots (dst src : List (Option T)) (n : Nat) :
    (copy_slots dst src n).length = dst.length := by
  induction n with
  | zero => rfl
  | succ n ih => simp [copy_slots, ih]

theorem join_copy_slots (dst src : List (Option T)) (n i : Nat) :
    ((copy_slots dst src n)[i]?).join
      = if i < n ∧ i < dst.length then (src[i]?).join else (dst[i]?).join := by
  induction n with
  | zero => simp [copy_slots]
  | succ n ih =>
    rw [copy_slots, join_set, length_copy_slots, ih]
    by_cases h1 : i = n
    · subst h1
      by_cases h2 : i < dst.length
      · simp [h2]
      · simp [h2]
    · have h3 : (i < n + 1) ↔ i < n := by omega
      simp [h1, h3]

theorem length_destroy_slots (b : List (Option T)) (from_ to_ : Nat) :
    (destroy_slots b from_ to_).length = b.length := by
  induction to_ with
  | zero => rfl
  | succ n ih =>
    rw [destroy_slots]
    split
    · simp [ih]
    · rfl

theorem join_destroy_slots (b : List (Option T)) (from_ to_ i : Nat) :
    ((destroy_slots b from_ to_)[i]?).join
      = if from_ ≤ i ∧ i < to_ then none else (b[i]?).join := by
  induction to_ with
  | zero => simp [destroy_slots]
  | succ n ih =>
    rw [destroy_slots]
    by_cases hf : from_ ≤ n
    · rw [if_pos hf, join_set, length_destroy_slots, ih]
      by_cases h1 : i = n
      · subst h1
        by_cases h2 : i < b.length
        · simp [h2, hf]
        · simp [h2, hf, List.getElem?_eq_none (Nat.le_of_not_lt h2)]
      · have h3 : (i < n + 1) ↔ i < n := by omega
        simp [h1, h3]
    · rw [if_neg hf]
      have h3 : ¬ (from_ ≤ i ∧ i < n + 1) := by omega
      simp [h3]

theorem slots_with_slots (v : SmallVector T N) (b : List (Option T)) :
    (v.with_slots b).slots = b := by
  cases v with
  | mk inl d sz cp => cases d <;> rfl

theorem size_with_slots (v : SmallVector T N) (b : List (Option T)) :
    (v.with_slots b).size_ = v.size_ := by
  cases v with
  | mk inl d sz cp => cases d <;> rfl

theorem cap_with_slots (v : SmallVector T N) (b : List (Option T)) :
    (v.with_slots b).cap_ = v.cap_ := by
  cases v with
  | mk inl d sz cp => cases d <;> rfl

theorem using_inline_with_slots (v : SmallVector T N) (b : List (Option T)) :
    (v.with_slots b).using_inline = v.using_inline := by
  cases v with
  | mk inl d sz cp => cases d <;> rfl

theorem inline_with_slots (v : SmallVector T N) (b : List (Option T)) :
    (v.with_slots b).inline_ = if v.using_inline = true then b else v.inline_ := by
  cases v with
  | mk inl d sz cp => cases d <;> rfl

theorem slots_of_inline {v : SmallVector T N} (h : v.using_inline = true) :
    v.slots = v.inline_ := by
  cases v with
  | mk inl d sz cp =>
    cases d with
    | inline_ptr => rfl
    | heap b => cases h

theorem data_of_inline {v : SmallVector T N} (h : v.using_inline = true) :
    v.data_ = .inline_ptr := by
  cases v with
  | mk inl d sz cp =>
    cases d with
    | inline_ptr => rfl
    | heap b => cases h

theorem Holds.elems_le_slots {v : SmallVector T N} {es : List T} (h : Holds v es) :
    es.length ≤ v.slots.length := by
  have h1 := h.size_eq
  have h2 := h.size_le
  have h3 := h.cap_le
  omega

theorem Holds.raw_from_size {v : SmallVector T N} {es : List T} (h : Holds v es)
    {i : Nat} (hi : v.size_ ≤ i) : (v.slots[i]?).join = none := by
  have := h.load_eq i
  rw [load] at this
  rw [this, List.getElem?_eq_none (h.size_eq ▸ hi)]

theorem Holds.cap_ge {v : SmallVector T N} {es : List T} (h : Holds v es) : N ≤ v.cap_ := by
  cases hu : v.using_inline with
  | true => exact Nat.le_of_eq (h.inline_cap hu).symm
  | false => exact Nat.le_of_lt (h.heap_cap hu).1

theorem Holds.of_new : Holds (new : SmallVector T N) [] := by
  refine ⟨rfl, ?_, Nat.zero_le _, ?_, ?_, fun _ => rfl, fun h => by cases h⟩
  · intro i
    simp only [load, slots, new]
    rw [join_replicate]
    rfl
  · simp only [slots, new, List.length_replicate, inline_slots]
    split <;> omega
  · simp [new]

theorem Holds.set_slots {v : SmallVector T N} {es : List T} (h : Holds v es)
    (b : List (Option T)) (es2 : List T) (hlen : b.length = v.slots.length)
    (hload : ∀ i : Nat, (b[i]?).join = es2[i]?) (hle : es2.length ≤ v.cap_) :
    Holds ({ v.with_slots b with size_ := es2.length } : SmallVector T N) es2 := by
  have hs : ({ v.with_slots b with size_ := es2.length } : SmallVector T N).slots = b := by
    cases v with
    | mk inl d sz cp => cases d <;> rfl
  have hu : ({ v.with_slots b with size_ := es2.length } : SmallVector T N).using_inline
      = v.using_inline := by
    cases v with
    | mk inl d sz cp => cases d <;> rfl
  have hi : ({ v.with_slots b with size_ := es2.length } : SmallVector T N).inline_
      = if v.using_inline = true then b else v.inline_ := by
    cases v with
    | mk inl d sz cp => cases d <;> rfl
  have hc : ({ v.with_slots b with size_ := es2.length } : SmallVector T N).cap_ = v.cap_ := by
    cases v with
    | mk inl d sz cp => cases d <;> rfl
  refine ⟨rfl, ?_, ?_, ?_, ?_, ?_, ?_⟩
  · intro i
    rw [load, hs]
    exact hload i
  · rw [hc]; exact hle
  · rw [hc, hs, hlen]; exact h.cap_le
  · rw [hi]
    split
    · rename_i hin
      rw [hlen, slots_of_inline hin]
      exact h.inline_len
    · exact h.inline_len
  · rw [hu, hc]; exact h.inline_cap
  · rw [hu, hc, hi]
    intro hf
    rw [hf]
    exact h.heap_cap hf

theorem set_slots_frame (v : SmallVector T N) (b : List (Option T)) (n : Nat) :
    ({ v.with_slots b with size_ := n } : SmallVector T N).cap_ = v.cap_ ∧
    ({ v.with_slots b with size_ := n } : SmallVector T N).using_inline = v.using_inline ∧
    ({ v.with_slots b with size_ := n } : SmallVector T N).size_ = n := by
  cases v with
  | mk inl d sz cp => cases d <;> exact ⟨rfl, rfl, rfl⟩

theorem Holds.inline_after_destroy {v : SmallVector T N} {es : List T} (h : Holds v es) :
    (v.destroy_range 0 v.size_).inline_ = List.replicate (inline_slots N) none := by
  rw [destroy_range, inline_with_slots]
  split
  · rename_i hin
    apply slots_ext
    · rw [length_destroy_slots, slots_of_inline hin, h.inline_len, List.length_replicate]
    · intro i
      rw [join_destroy_slots, join_replicate]
      split
      · rfl
      · rename_i hi
        exact h.raw_from_size (by omega)
  · rename_i hin
    exact (h.heap_cap (by simpa using hin)).2

theorem grow_to_eq (v : SmallVector T N) (n : Nat) :
    v.grow_to n = ⟨(v.destroy_range 0 v.size_).inline_,
      .heap (copy_slots (List.replicate n none) v.slots v.size_), v.size_, n⟩ := by
  simp [grow_to, destroy_range, size_with_slots]

theorem Holds.of_grow_to {v : SmallVector T N} {es : List T} (h : Holds v es) {n : Nat}
    (hn : v.cap_ < n) : Holds (v.grow_to n) es := by
  rw [grow_to_eq, h.inline_after_destroy]
  have hsz := h.size_eq
  have hle := h.size_le
  refine ⟨hsz, ?_, ?_, ?_, ?_, ?_, ?_⟩
  · intro i
    simp only [load, slots]
    rw [join_copy_slots, List.length_replicate]
    by_cases hi : i < v.size_
    · rw [if_pos ⟨hi, by omega⟩]
      exact h.load_eq i
    · rw [if_neg (fun hc => hi hc.1), join_replicate, List.getElem?_eq_none (by omega)]
  · show v.size_ ≤ n
    omega
  · show n ≤ (copy_slots (List.replicate n none) v.slots v.size_).length
    rw [length_copy_slots, List.length_replicate]
  · simp
  · intro hc; cases hc
  · intro _
    exact ⟨Nat.lt_of_le_of_lt h.cap_ge hn, rfl⟩

theorem Holds.of_reserve {v : SmallVector T N} {es : List T} (h : Holds v es) (n : Nat) :
    Holds (v.reserve n) es := by
  rw [reserve]
  split
  · exact h
  · rename_i hn
    exact h.of_grow_to (by omega)

theorem reserve_frame (v : SmallVector T N) (n : Nat) :
    (v.reserve n).size_ = v.size_ ∧
    (n ≤ v.cap_ → v.reserve n = v) ∧
    (v.cap_ < n → (v.reserve n).cap_ = n ∧ (v.reserve n).using_inline = false) := by
  refine ⟨?_, ?_, ?_⟩
  · rw [reserve]
    split
    · rfl
    · rw [grow_to_eq]
  · intro hn
    rw [reserve, if_pos hn]
  · intro hn
    rw [reserve, if_neg (by omega), grow_to_eq]
    exact ⟨rfl, rfl⟩

theorem Holds.append_slot {v : SmallVector T N} {es : List T} (h : Holds v es) (x : T)
    (hlt : v.size_ < v.cap_) :
    Holds ({ v.with_slots (v.slots.set v.size_ (some x)) with size_ := (es ++ [x]).length }
      : SmallVector T N) (es ++ [x]) := by
  have hsz := h.size_eq
  have hcl := h.cap_le
  apply h.set_slots
  · simp
  · intro i
    rw [join_set, List.getElem?_append]
    by_cases hi : i = v.size_
    · rw [if_pos ⟨hi, by omega⟩, if_neg (by omega)]
      have e : i - es.length = 0 := by omega
      rw [e]
      rfl
    · rw [if_neg (fun hc => hi hc.1)]
      have := h.load_eq i
      rw [load] at this
      rw [this]
      by_cases hi2 : i < es.length
      · rw [if_pos hi2]
      · rw [if_neg hi2, List.getElem?_eq_none (by omega), List.getElem?_eq_none (by simp; omega)]
  · simp; omega

theorem emplace_back_eq {v : SmallVector T N} {es : List T} (h : Holds v es) (x : T) :
    (v.emplace_back (.object x)).2 =
      ({ (if v.size_ = v.cap_ then v.reserve v.next_capacity else v).with_slots
            ((if v.size_ = v.cap_ then v.reserve v.next_capacity else v).slots.set
              (if v.size_ = v.cap_ then v.reserve v.next_capacity else v).size_ (some x))
          with size_ := (es ++ [x]).length } : SmallVector T N) := by
  have hsz : (if v.size_ = v.cap_ then v.reserve v.next_capacity else v).size_ = es.length := by
    split
    · rw [(reserve_frame v _).1]; exact h.size_eq
    · exact h.size_eq
  simp only [emplace_back, read_arg, size_with_slots, hsz, List.length_append,
    List.length_singleton]

theorem next_capacity_gt (v : SmallVector T N) : v.cap_ < v.next_capacity := by
  rw [next_capacity]
  split <;> omega

theorem Holds.of_push_back {v : SmallVector T N} {es : List T} (h : Holds v es) (x : T) :
    Holds (v.push_back x) (es ++ [x]) := by
  rw [push_back, emplace_back_eq h]
  have hsz := h.size_eq
  have hle := h.size_le
  by_cases hf : v.size_ = v.cap_
  · simp only [hf, if_true]
    have hg := h.of_reserve v.next_capacity
    have hfr := reserve_frame v v.next_capacity
    have hgt := next_capacity_gt v
    have h1 := hg.append_slot x (by rw [hfr.1, (hfr.2.2 hgt).1]; omega)
    rw [hfr.1] at h1
    rw [hfr.1]
    exact h1
  · simp only [hf, if_false]
    exact h.append_slot x (by omega)

theorem push_back_frame {v : SmallVector T N} {es : List T} (h : Holds v es) (x : T) :
    (v.size_ = v.cap_ → (v.push_back x).cap_ = v.next_capacity ∧
        (v.push_back x).using_inline = false) ∧
    (v.size_ ≠ v.cap_ → (v.push_back x).cap_ = v.cap_ ∧
        (v.push_back x).using_inline = v.using_inline) := by
  rw [push_back, emplace_back_eq h]
  constructor
  · intro hf
    simp only [hf, if_true]
    have hfr := (reserve_frame v v.next_capacity).2.2 (next_capacity_gt v)
    have hs := set_slots_frame (v.reserve v.next_capacity)
      ((v.reserve v.next_capacity).slots.set (v.reserve v.next_capacity).size_ (some x))
      (es ++ [x]).length
    exact ⟨hs.1.trans hfr.1, hs.2.1.trans hfr.2⟩
  · intro hf
    simp only [hf, if_false]
    have hs := set_slots_frame v (v.slots.set v.size_ (some x)) (es ++ [x]).length
    exact ⟨hs.1, hs.2.1⟩

theorem pop_back_eq {v : SmallVector T N} {es : List T} (h : Holds v es) (hne : v.size_ ≠ 0) :
    v.pop_back = ({ v.with_slots (v.slots.set (v.size_ - 1) none)
      with size_ := es.dropLast.length } : SmallVector T N) := by
  rw [pop_back, if_neg hne]
  simp only [size_with_slots, h.size_eq, List.length_dropLast]

theorem Holds.of_pop_back {v : SmallVector T N} {es : List T} (h : Holds v es) :
    Holds v.pop_back es.dropLast := by
  have hsz := h.size_eq
  have hle := h.size_le
  by_cases hz : v.size_ = 0
  · have he : es = [] := List.length_eq_zero.mp (by omega)
    rw [pop_back, if_pos hz]
    subst he
    exact h
  · rw [pop_back_eq h hz]
    apply h.set_slots
    · simp
    · intro i
      rw [join_set, List.getElem?_dropLast]
      have hl := h.load_eq i
      rw [load] at hl
      by_cases hi : i = v.size_ - 1
      · rw [if_pos ⟨hi, by have := h.cap_le; omega⟩, if_neg (by omega)]
      · rw [if_neg (fun hc => hi hc.1), hl]
        by_cases hi2 : i < es.length - 1
        · rw [if_pos hi2]
        · rw [if_neg hi2, List.getElem?_eq_none (by omega)]
    · simp; omega

theorem pop_back_frame (v : SmallVector T N) :
    v.pop_back.cap_ = v.cap_ ∧ v.pop_back.using_inline = v.using_inline ∧
      v.pop_back.size_ = v.size_ - 1 := by
  rw [pop_back]
  split
  · rename_i hz
    exact ⟨rfl, rfl, by omega⟩
  · have hs := set_slots_frame v (v.slots.set (v.size_ - 1) none)
      ((v.with_slots (v.slots.set (v.size_ - 1) none)).size_ - 1)
    exact ⟨hs.1, hs.2.1, by rw [hs.2.2, size_with_slots]⟩

theorem Holds.of_clear {v : SmallVector T N} {es : List T} (h : Holds v es) :
    Holds v.clear [] := by
  have e : v.clear = ({ v.with_slots (destroy_slots v.slots 0 v.size_)
      with size_ := ([] : List T).length } : SmallVector T N) := rfl
  rw [e]
  apply h.set_slots
  · rw [length_destroy_slots]
  · intro i
    rw [join_destroy_slots]
    split
    · rfl
    · rename_i hi
      rw [h.raw_from_size (by omega)]
      rfl
  · exact Nat.zero_le _

theorem clear_frame (v : SmallVector T N) :
    v.clear.cap_ = v.cap_ ∧ v.clear.using_inline = v.using_inline ∧ v.clear.size_ = 0 :=
  set_slots_frame v (destroy_slots v.slots 0 v.size_) 0

theorem Holds.clear_eq_new {v : SmallVector T N} {es : List T} (h : Holds v es)
    (hin : v.using_inline = true) : v.clear = new := by
  have hi := h.inline_after_destroy
  have hc := h.inline_cap hin
  cases v with
  | mk inl d sz cp =>
    cases d with
    | heap b => cases hin
    | inline_ptr =>
      simp only [clear, destroy_range, with_slots, slots] at hi ⊢
      simp only [new, SmallVector.mk.injEq, true_and]
      exact ⟨hi, hc⟩

theorem Holds.copy_self {v : SmallVector T N} {es : List T} (h : Holds v es)
    (hin : v.using_inline = true) :
    ({ (new : SmallVector T N).with_slots
        (copy_slots (new : SmallVector T N).slots v.slots v.size_) with size_ := v.size_ }
      : SmallVector T N) = v := by
  have hc := h.inline_cap hin
  have hl := h.inline_len
  have hcl := h.cap_le
  have hle := h.size_le
  have e : copy_slots (List.replicate (inline_slots N) none) v.slots v.size_ = v.inline_ := by
    apply slots_ext
    · rw [length_copy_slots, List.length_replicate, hl]
    · intro i
      rw [join_copy_slots, List.length_replicate, slots_of_inline hin]
      split
      · rfl
      · rename_i hi
        rw [join_replicate]
        have hr := h.raw_from_size (i := i)
        rw [slots_of_inline hin] at hr hcl
        rw [hl] at hcl
        by_cases hi2 : v.size_ ≤ i
        · exact (hr hi2).symm
        · have : inline_slots N ≤ i := by omega
          rw [List.getElem?_eq_none (by omega)]
          rfl
  cases v with
  | mk inl d sz cp =>
    cases d with
    | heap b => cases hin
    | inline_ptr =>
      simp only [new, with_slots, slots] at e ⊢
      simp only [SmallVector.mk.injEq, true_and]
      exact ⟨e, hc.symm⟩

theorem Holds.move_ctor_eq {v : SmallVector T N} {es : List T} (h : Holds v es) :
    move_ctor v = (v, new) := by
  cases hin : v.using_inline with
  | true =>
    simp only [move_ctor, hin, if_true]
    rw [h.copy_self hin, h.clear_eq_new hin]
  | false =>
    have hh := (h.heap_cap hin).2
    simp only [move_ctor, hin, Bool.false_eq_true, if_false]
    cases v with
    | mk inl d sz cp =>
      simp only [new, Prod.mk.injEq, SmallVector.mk.injEq, and_true, true_and] at hh ⊢
      exact ⟨hh.symm, hh⟩

theorem Holds.move_assign_from_eq {t v : SmallVector T N} {et es : List T}
    (ht : Holds t et) (h : Holds v es) : move_assign_from t v = (v, new) := by
  have hd := ht.inline_after_destroy
  have e1 : ({ t.destroy_range 0 t.size_ with data_ := .inline_ptr, cap_ := N, size_ := 0 }
      : SmallVector T N) = new := by
    simp only [new, SmallVector.mk.injEq, and_true, true_and]
    exact hd
  cases hin : v.using_inline with
  | true =>
    simp only [move_assign_from, hin, if_true]
    rw [e1, h.copy_self hin, h.clear_eq_new hin]
  | false =>
    have hh := (h.heap_cap hin).2
    simp only [move_assign_from, hin, Bool.false_eq_true, if_false]
    cases v with
    | mk inl d sz cp =>
      simp only [new, Prod.mk.injEq, SmallVector.mk.injEq, and_true, true_and] at hh ⊢
      exact ⟨hd.trans hh.symm, hh⟩

theorem Holds.swap_with_eq {a b : SmallVector T N} {ea eb : List T}
    (ha : Holds a ea) (hb : Holds b eb) : swap_with a b = (b, a) := by
  simp only [swap_with, hb.move_ctor_eq, Holds.of_new.move_assign_from_eq ha,
    Holds.of_new.move_assign_from_eq hb]

theorem copy_ctor_frame (other : SmallVector T N) :
    (copy_ctor other).size_ = other.size_ ∧
    (copy_ctor other).cap_ = max N other.size_ ∧
    ((copy_ctor other).using_inline = true ↔ other.size_ ≤ N) := by
  have hs := set_slots_frame ((new : SmallVector T N).reserve other.size_)
    (copy_slots ((new : SmallVector T N).reserve other.size_).slots other.slots other.size_)
    other.size_
  have hr := reserve_frame (new : SmallVector T N) other.size_
  have hn : (new : SmallVector T N).cap_ = N := rfl
  rw [hn] at hr
  refine And.intro hs.2.2 (And.intro ?_ ?_)
  · refine hs.1.trans ?_
    by_cases hle : other.size_ ≤ N
    · rw [hr.2.1 hle, hn, Nat.max_eq_left hle]
    · rw [(hr.2.2 (by omega)).1, Nat.max_eq_right (by omega)]
  · rw [show (copy_ctor other).using_inline
        = ((new : SmallVector T N).reserve other.size_).using_inline from hs.2.1]
    by_cases hle : other.size_ ≤ N
    · rw [hr.2.1 hle]
      exact ⟨fun _ => hle, fun _ => rfl⟩
    · rw [(hr.2.2 (by omega)).2]
      exact ⟨fun hc => Bool.noConfusion hc, fun hc => absurd hc hle⟩

theorem Holds.of_copy_ctor {v : SmallVector T N} {es : List T} (h : Holds v es) :
    Holds (copy_ctor v) es := by
  have hg : Holds ((new : SmallVector T N).reserve v.size_) [] := Holds.of_new.of_reserve _
  have hr := reserve_frame (new : SmallVector T N) v.size_
  have hn : (new : SmallVector T N).cap_ = N := rfl
  have hsz := h.size_eq
  have hcap : v.size_ ≤ ((new : SmallVector T N).reserve v.size_).cap_ := by
    by_cases hle : v.size_ ≤ N
    · rw [hr.2.1 (by rw [hn]; exact hle), hn]; exact hle
    · rw [(hr.2.2 (by rw [hn]; omega)).1]
  have key := hg.set_slots
    (copy_slots ((new : SmallVector T N).reserve v.size_).slots v.slots v.size_) es
    (by rw [length_copy_slots])
    (by
      intro i
      rw [join_copy_slots]
      have hcl := hg.cap_le
      by_cases hi : i < v.size_
      · rw [if_pos ⟨hi, by omega⟩]
        exact h.load_eq i
      · have hl := hg.load_eq i
        rw [load] at hl
        have he : es[i]? = none := List.getElem?_eq_none (by omega)
        rw [if_neg (fun hc => hi hc.1), hl, he]
        rfl)
    (by omega)
  have e : copy_ctor v = ({ ((new : SmallVector T N).reserve v.size_).with_slots
      (copy_slots ((new : SmallVector T N).reserve v.size_).slots v.slots v.size_)
        with size_ := es.length } : SmallVector T N) := by
    rw [copy_ctor, ← hsz]
  rw [e]
  exact key

theorem Holds.copy_assign_from_eq {t v : SmallVector T N} {et es : List T}
    (ht : Holds t et) (h : Holds v es) : copy_assign_from t v = copy_ctor v := by
  rw [copy_assign_from, ht.swap_with_eq h.of_copy_ctor]

theorem Reachable.holds {v : SmallVector T N} (hr : Reachable v) : ∃ es, Holds v es := by
  induction hr with
  | default_ctor => exact ⟨[], Holds.of_new⟩
  | copy_ctor _ ih =>
    obtain ⟨es, h⟩ := ih
    exact ⟨es, h.of_copy_ctor⟩
  | move_ctor_new _ ih =>
    obtain ⟨es, h⟩ := ih
    rw [h.move_ctor_eq]
    exact ⟨es, h⟩
  | move_ctor_source _ ih =>
    obtain ⟨es, h⟩ := ih
    rw [h.move_ctor_eq]
    exact ⟨[], Holds.of_new⟩
  | push_back x _ ih =>
    obtain ⟨es, h⟩ := ih
    exact ⟨es ++ [x], h.of_push_back x⟩
  | pop_back _ ih =>
    obtain ⟨es, h⟩ := ih
    exact ⟨es.dropLast, h.of_pop_back⟩
  | clear _ ih =>
    obtain ⟨es, h⟩ := ih
    exact ⟨[], h.of_clear⟩
  | reserve n _ ih =>
    obtain ⟨es, h⟩ := ih
    exact ⟨es, h.of_reserve n⟩
  | copy_assign _ _ ih1 ih2 =>
    obtain ⟨et, ht⟩ := ih1
    obtain ⟨es, h⟩ := ih2
    rw [ht.copy_assign_from_eq h]
    exact ⟨es, h.of_copy_ctor⟩
  | move_assign_target _ _ ih1 ih2 =>
    obtain ⟨et, ht⟩ := ih1
    obtain ⟨es, h⟩ := ih2
    rw [ht.move_assign_from_eq h]
    exact ⟨es, h⟩
  | move_assign_source _ _ ih1 ih2 =>
    obtain ⟨et, ht⟩ := ih1
    obtain ⟨es, h⟩ := ih2
    rw [ht.move_assign_from_eq h]
    exact ⟨[], Holds.of_new⟩
  | swap_this _ _ ih1 ih2 =>
    obtain ⟨et, ht⟩ := ih1
    obtain ⟨es, h⟩ := ih2
    rw [ht.swap_with_eq h]
    exact ⟨es, h⟩
  | swap_other _ _ ih1 ih2 =>
    obtain ⟨et, ht⟩ := ih1
    obtain ⟨es, h⟩ := ih2
    rw [ht.swap_with_eq h]
    exact ⟨et, ht⟩

theorem Holds.inline_iff {v : SmallVector T N} {es : List T} (h : Holds v es) :
    v.using_inline = true ↔ v.cap_ = N := by
  constructor
  · exact h.inline_cap
  · intro hc
    cases hu : v.using_inline with
    | true => rfl
    | false =>
      have := (h.heap_cap hu).1
      omega

theorem Holds.subscript_eq {v : SmallVector T N} {es : List T} (h : Holds v es) (i : Nat) :
    v.subscript i = es[i]? := h.load_eq i

theorem Holds.back_eq {v : SmallVector T N} {es : List T} (h : Holds v es) :
    v.back = es.getLast? := by
  rw [back, h.load_eq, h.size_eq, List.getLast?_eq_getElem?]

theorem growth_arith (N n c : Nat)
    (hG : (n ≤ N ∧ c = N) ∨
      (N < n ∧ ∃ j, c = max 1 N * 2 ^ j ∧ (j = 0 ∨ max 1 N * 2 ^ (j - 1) < n))) :
    (n + 1 ≤ N ∧ (if n = c then (if c = 0 then 1 else c * 2) else c) = N) ∨
      (N < n + 1 ∧ ∃ j, (if n = c then (if c = 0 then 1 else c * 2) else c) = max 1 N * 2 ^ j ∧
        (j = 0 ∨ max 1 N * 2 ^ (j - 1) < n + 1)) := by
  rcases hG with ⟨h1, h2⟩ | ⟨h1, j, h2, h3⟩
  · by_cases hn : n = c
    · right
      refine ⟨by omega, ?_⟩
      rw [if_pos hn]
      by_cases hz : c = 0
      · have hN : N = 0 := by omega
        subst hN
        exact ⟨0, by simp [hz], Or.inl rfl⟩
      · have hB : max 1 N = N := Nat.max_eq_right (by omega)
        refine ⟨1, ?_, Or.inr ?_⟩
        · rw [if_neg hz, hB, h2]
          simp
        · rw [hB]
          simp
          omega
    · left
      rw [if_neg hn]
      exact ⟨by omega, h2⟩
  · right
    refine ⟨by omega, ?_⟩
    by_cases hn : n = c
    · have hz : c ≠ 0 := by omega
      rw [if_pos hn, if_neg hz]
      refine ⟨j + 1, ?_, Or.inr ?_⟩
      · rw [h2, Nat.pow_succ, Nat.mul_assoc]
      · rw [Nat.add_sub_cancel, ← h2]
        omega
    · rw [if_neg hn]
      refine ⟨j, h2, ?_⟩
      rcases h3 with h3 | h3
      · exact Or.inl h3
      · exact Or.inr (by omega)

theorem doubling_minimal (B n j : Nat) (hmin : j = 0 ∨ B * 2 ^ (j - 1) < n) :
    ∀ i, n ≤ B * 2 ^ i → B * 2 ^ j ≤ B * 2 ^ i := by
  intro i hi
  apply Nat.mul_le_mul_left
  apply Nat.pow_le_pow_right (by decide)
  by_contra hlt
  rcases hmin with h0 | h1
  · omega
  · have hle : B * 2 ^ i ≤ B * 2 ^ (j - 1) :=
      Nat.mul_le_mul_left _ (Nat.pow_le_pow_right (by decide) (by omega))
    omega

theorem push_back_cap {v : SmallVector T N} {es : List T} (h : Holds v es) (x : T) :
    (v.push_back x).cap_ =
      if es.length = v.cap_ then (if v.cap_ = 0 then 1 else v.cap_ * 2) else v.cap_ := by
  have hf := push_back_frame h x
  rw [← h.size_eq]
  by_cases hc : v.size_ = v.cap_
  · rw [if_pos hc, (hf.1 hc).1, next_capacity]
  · rw [if_neg hc, (hf.2 hc).1]

theorem run_push_back (xs : List T) :
    ∀ {v : SmallVector T N} {es : List T}, Holds v es →
      ((es.length ≤ N ∧ v.cap_ = N) ∨
        (N < es.length ∧ ∃ j, v.cap_ = max 1 N * 2 ^ j ∧
          (j = 0 ∨ max 1 N * 2 ^ (j - 1) < es.length))) →
      Holds (v.run (xs.map Call.push_back)) (es ++ xs) ∧
      (((es ++ xs).length ≤ N ∧ (v.run (xs.map Call.push_back)).cap_ = N) ∨
        (N < (es ++ xs).length ∧ ∃ j, (v.run (xs.map Call.push_back)).cap_ = max 1 N * 2 ^ j ∧
          (j = 0 ∨ max 1 N * 2 ^ (j - 1) < (es ++ xs).length))) := by
  induction xs with
  | nil =>
    intro v es h hG
    simpa [run] using ⟨h, hG⟩
  | cons x xs ih =>
    intro v es h hG
    have h1 := h.of_push_back x
    have hG1 := growth_arith N es.length v.cap_ hG
    rw [← push_back_cap h x] at hG1
    have := ih h1 (by simpa using hG1)
    simpa [run, call] using this

theorem run_pop_back_frame (k : Nat) :
    ∀ (v : SmallVector T N),
      (v.run (List.replicate k Call.pop_back)).cap_ = v.cap_ ∧
      (v.run (List.replicate k Call.pop_back)).using_inline = v.using_inline ∧
      (v.run (List.replicate k Call.pop_back)).size_ = v.size_ - k := by
  induction k with
  | zero => intro v; exact ⟨rfl, rfl, rfl⟩
  | succ k ih =>
    intro v
    have h1 := ih v.pop_back
    have h2 := pop_back_frame v
    simp only [List.replicate_succ, run, call]
    exact ⟨h1.1.trans h2.1, h1.2.1.trans h2.2.1, by rw [h1.2.2, h2.2.2]; omega⟩

theorem run_push_back_holds (xs : List T) :
    ∀ {v : SmallVector T N} {es : List T}, Holds v es →
      Holds (v.run (xs.map Call.push_back)) (es ++ xs) := by
  induction xs with
  | nil => intro v es h; simpa [run] using h
  | cons x xs ih =>
    intro v es h
    have := ih (h.of_push_back x)
    simpa [run, call] using this

theorem update_swap {A : Type} (f : Nat → A) (a b : Nat) :
    Function.update (Function.update (Function.update (Function.update f a (f b)) b (f a))
      a (f a)) b (f b) = f := by
  funext i
  by_cases h1 : i = b
  · subst h1
    simp
  · by_cases h2 : i = a
    · subst h2
      simp [h1]
    · simp [h1, h2]

theorem Holds.of_call {v : SmallVector T N} {es : List T} (h : Holds v es) (c : Call T) :
    ∃ es2, Holds (v.call c) es2 := by
  cases c with
  | push_back x => exact ⟨es ++ [x], h.of_push_back x⟩
  | pop_back => exact ⟨es.dropLast, h.of_pop_back⟩
  | clear => exact ⟨[], h.of_clear⟩
  | reserve n => exact ⟨es, h.of_reserve n⟩

theorem Holds.call_heap {v : SmallVector T N} {es : List T} (h : Holds v es) (c : Call T)
    (hu : v.using_inline = false) : (v.call c).using_inline = false := by
  cases c with
  | push_back x =>
    have hf := push_back_frame h x
    by_cases hc : v.size_ = v.cap_
    · exact (hf.1 hc).2
    · exact (hf.2 hc).2.trans hu
  | pop_back => exact (pop_back_frame v).2.1.trans hu
  | clear => exact (clear_frame v).2.1.trans hu
  | reserve n =>
    have hf := reserve_frame v n
    by_cases hn : n ≤ v.cap_
    · show (v.reserve n).using_inline = false
      rw [hf.2.1 hn]
      exact hu
    · exact (hf.2.2 (by omega)).2

theorem run_heap (calls : List (Call T)) :
    ∀ {v : SmallVector T N} {es : List T}, Holds v es → v.using_inline = false →
      (v.run calls).using_inline = false := by
  induction calls with
  | nil => intro v es _ hu; exact hu
  | cons c cs ih =>
    intro v es h hu
    obtain ⟨es2, h2⟩ := h.of_call c
    exact ih h2 (h.call_heap c hu)

theorem run_inline_iff (calls : List (Call T)) :
    ∀ {v : SmallVector T N} {es : List T}, Holds v es →
      ((v.run calls).using_inline = true ↔ ∀ s ∈ v.states calls, s.cap_ ≤ N) := by
  induction calls with
  | nil =>
    intro v es h
    simp only [run, states, List.mem_singleton, forall_eq]
    rw [h.inline_iff]
    have := h.cap_ge
    omega
  | cons c cs ih =>
    intro v es h
    obtain ⟨es2, h2⟩ := h.of_call c
    simp only [run, states, List.mem_cons, forall_eq_or_imp]
    rw [ih h2]
    constructor
    · intro hall
      refine ⟨?_, hall⟩
      cases hu : v.using_inline with
      | true => exact Nat.le_of_eq (h.inline_cap hu)
      | false =>
        have hfin := run_heap cs h2 (h.call_heap c hu)
        have := (ih h2).mpr hall
        rw [hfin] at this
        cases this
    · exact fun hall => hall.2

theorem copy_slots_counted_eq (dst src : List (Option T)) (n : Nat) :
    copy_slots_counted dst src n = (copy_slots dst src n, n) := by
  induction n with
  | zero => rfl
  | succ n ih => simp only [copy_slots_counted, copy_slots, ih]

theorem move_ctor_counted_eq (other : SmallVector T N) :
    move_ctor_counted other
      = (move_ctor other, if other.using_inline = true then other.size_ else 0) := by
  cases hu : other.using_inline with
  | true => simp only [move_ctor_counted, move_ctor, hu, if_true, copy_slots_counted_eq]
  | false =>
    simp only [move_ctor_counted, move_ctor, hu, Bool.false_eq_true, if_false]

theorem move_assign_from_counted_eq (self other : SmallVector T N) :
    move_assign_from_counted self other
      = (move_assign_from self other, if other.using_inline = true then other.size_ else 0) := by
  cases hu : other.using_inline with
  | true =>
    simp only [move_assign_from_counted, move_assign_from, hu, if_true, copy_slots_counted_eq]
  | false =>
    simp only [move_assign_from_counted, move_assign_from, hu, Bool.false_eq_true, if_false]

/-! ## Small vector: the claims -/

/-- C12, as amended: after `n` `push_back` calls on a freshly constructed
`SmallVector<T, N>`, `size() == n`, and `capacity()` is `N` if `n ≤ N` and
otherwise the smallest of `B, 2B, 4B, ...` that is at least `n`, where
`B = max(1, N)`: for `N ≥ 1` that is doubling from `N`, for `N = 0` the first
growth goes to 1. -/
theorem push_back_growth (N : Nat) (xs : List T) :
    ((new : SmallVector T N).run (xs.map Call.push_back)).size = xs.length ∧
    (xs.length ≤ N → ((new : SmallVector T N).run (xs.map Call.push_back)).capacity = N) ∧
    (N < xs.length →
      ∃ j, ((new : SmallVector T N).run (xs.map Call.push_back)).capacity = max 1 N * 2 ^ j ∧
        xs.length ≤ ((new : SmallVector T N).run (xs.map Call.push_back)).capacity ∧
        ∀ i, xs.length ≤ max 1 N * 2 ^ i →
          ((new : SmallVector T N).run (xs.map Call.push_back)).capacity ≤ max 1 N * 2 ^ i) := by
  have h := run_push_back xs (Holds.of_new (T := T) (N := N))
    (Or.inl ⟨Nat.zero_le _, rfl⟩)
  simp only [List.nil_append] at h
  obtain ⟨hh, hG⟩ := h
  have hsz := hh.size_eq
  have hle := hh.size_le
  refine ⟨hsz, ?_, ?_⟩
  · intro hn
    rcases hG with ⟨_, hc⟩ | ⟨hlt, _⟩
    · exact hc
    · omega
  · intro hn
    rcases hG with ⟨hlt, _⟩ | ⟨_, j, hc, hmin⟩
    · omega
    · refine ⟨j, hc, by rw [capacity]; omega, ?_⟩
      intro i hi
      rw [capacity, hc]
      exact doubling_minimal _ _ j hmin i hi

/-- Witness of C12 as amended: five appends with inline capacity 4. -/
theorem push_back_growth_witness :
    4 < [0, 1, 2, 3, 4].length ∧
    ∃ j, ((new : SmallVector Nat 4).run ([0, 1, 2, 3, 4].map Call.push_back)).capacity
        = max 1 4 * 2 ^ j ∧
      [0, 1, 2, 3, 4].length
        ≤ ((new : SmallVector Nat 4).run ([0, 1, 2, 3, 4].map Call.push_back)).capacity ∧
      ∀ i, [0, 1, 2, 3, 4].length ≤ max 1 4 * 2 ^ i →
        ((new : SmallVector Nat 4).run ([0, 1, 2, 3, 4].map Call.push_back)).capacity
          ≤ max 1 4 * 2 ^ i :=
  ⟨by decide, (push_back_growth 4 [0, 1, 2, 3, 4]).2.2 (by decide)⟩

/-- C12 as stated fails for inline capacity 0: after one `push_back` the
capacity is 1, which is not among the values `0, 2*0, 4*0, ...` reached by
doubling from `N = 0`. -/
theorem push_back_growth_counterexample :
    ((new : SmallVector Nat 0).run ([7].map Call.push_back)).capacity = 1 ∧
    ¬ ∃ j, ((new : SmallVector Nat 0).run ([7].map Call.push_back)).capacity = 0 * 2 ^ j ∧
        [7].length ≤ ((new : SmallVector Nat 0).run ([7].map Call.push_back)).capacity ∧
        ∀ i, [7].length ≤ 0 * 2 ^ i →
          ((new : SmallVector Nat 0).run ([7].map Call.push_back)).capacity ≤ 0 * 2 ^ i := by
  have hc : ((new : SmallVector Nat 0).run ([7].map Call.push_back)).capacity = 1 := by decide
  refine ⟨hc, ?_⟩
  rintro ⟨j, hj, _⟩
  rw [hc, Nat.zero_mul] at hj
  exact absurd hj (by decide)

/-- Appending an object that is not an element of the vector: on a vector
holding `e_0..e_{s-1}`, `push_back(x)` and `emplace_back(x)` with `x` outside
the vector yield `e_0..e_{s-1}, x`: `size()` becomes `s + 1`, every index
`i < s` still holds `e_i`, `back()` and the reference `emplace_back` returns
are `x`; `capacity()` becomes `max(1, 2 * capacity)` when
`size() == capacity()` held before the call, and is unchanged otherwise. -/
theorem push_back_contract (v : SmallVector T N) (es : List T) (h : Holds v es) (x : T) :
    Holds (v.push_back x) (es ++ [x]) ∧
    (v.emplace_back (.object x)).2 = v.push_back x ∧
    (v.push_back x).size = v.size + 1 ∧
    (∀ i, i < v.size → (v.push_back x).subscript i = v.subscript i ∧
      (v.push_back x).subscript i = es[i]?) ∧
    (v.push_back x).subscript v.size = some x ∧
    (v.push_back x).back = some x ∧
    (v.emplace_back (.object x)).1 = some x ∧
    (v.size = v.capacity → (v.push_back x).capacity = max 1 (2 * v.capacity)) ∧
    (v.size ≠ v.capacity → (v.push_back x).capacity = v.capacity) := by
  have hp := h.of_push_back x
  have hsz := h.size_eq
  have hf := push_back_frame h x
  have hlast : (v.push_back x).load ((v.push_back x).size_ - 1) = some x := by
    rw [hp.load_eq, hp.size_eq]
    simp
  refine ⟨hp, rfl, ?_, ?_, ?_, ?_, hlast, ?_, ?_⟩
  · rw [size, size, hp.size_eq, hsz]
    simp
  · intro i hi
    rw [size, hsz] at hi
    rw [hp.subscript_eq, h.subscript_eq, List.getElem?_append_left hi]
    exact ⟨rfl, rfl⟩
  · rw [hp.subscript_eq, size, hsz]
    simp
  · exact hlast
  · intro hc
    rw [capacity, (hf.1 hc).1, next_capacity, capacity]
    split
    · rename_i hz
      rw [hz]
      rfl
    · rw [Nat.max_eq_right (by omega)]
      omega
  · intro hc
    exact (hf.2 hc).1

/-- An instance of `push_back_contract`: the append that promotes a full inline
vector of capacity 2 to heap storage. -/
theorem push_back_contract_witness :
    Holds ((new : SmallVector Nat 2).run [.push_back 5, .push_back 6]) [5, 6] ∧
    Holds (((new : SmallVector Nat 2).run [.push_back 5, .push_back 6]).push_back 7)
      ([5, 6] ++ [7]) :=
  ⟨(Holds.of_new.of_push_back 5).of_push_back 6,
   (push_back_contract ((new : SmallVector Nat 2).run [.push_back 5, .push_back 6]) [5, 6]
      ((Holds.of_new.of_push_back 5).of_push_back 6) 7).1⟩

/-- C13, the code at `v.push_back(v[0])` on a full vector: `v` holds `"a", "b"`
with `size() == capacity() == 2`.  The call grows the storage first and then
constructs the new element through the reference, which points at the
destroyed slot of the old storage: `size()` becomes 3 and the two old elements
are kept, but `back()` is not a live copy of `"a"`.  The same call with `"a"`
held outside the vector, and the same call on a vector that is not full,
append `"a"`. -/
theorem push_back_own_element :
    (((new : SmallVector String 2).push_back "a").push_back "b").size = 2 ∧
    (((new : SmallVector String 2).push_back "a").push_back "b").capacity = 2 ∧
    (((new : SmallVector String 2).push_back "a").push_back "b").subscript 0 = some "a" ∧
    ((((new : SmallVector String 2).push_back "a").push_back "b").push_back_ref
      (.element 0)).size = 3 ∧
    ((((new : SmallVector String 2).push_back "a").push_back "b").push_back_ref
      (.element 0)).subscript 0 = some "a" ∧
    ((((new : SmallVector String 2).push_back "a").push_back "b").push_back_ref
      (.element 0)).subscript 1 = some "b" ∧
    ((((new : SmallVector String 2).push_back "a").push_back "b").push_back_ref
      (.element 0)).back = none ∧
    ((((new : SmallVector String 2).push_back "a").push_back "b").push_back_ref
      (.object "a")).back = some "a" ∧
    ((((new : SmallVector String 3).push_back "a").push_back "b").push_back_ref
      (.element 0)).back = some "a" := by
  refine ⟨by decide, by decide, by decide, by decide, by decide, by decide, by decide,
    by decide, by decide⟩

/-- C14: in every state reachable from default, copy or move construction
through `push_back`/`emplace_back`, `pop_back`, `clear`, `reserve`, copy
assignment, move assignment and `swap`, `capacity() ≥ size()` and
`capacity() ≥ N`. -/
theorem capacity_bounds (v : SmallVector T N) (hr : Reachable v) :
    v.size ≤ v.capacity ∧ N ≤ v.capacity := by
  obtain ⟨es, h⟩ := hr.holds
  exact ⟨h.size_le, h.cap_ge⟩

/-- Witness of C14: a vector grown to heap storage, moved from, and appended to
again. -/
theorem capacity_bounds_witness :
    Reachable (((move_ctor (((new : SmallVector Nat 1).push_back 3).push_back 4)).2).push_back 5) ∧
    (((move_ctor (((new : SmallVector Nat 1).push_back 3).push_back 4)).2).push_back 5).size
      ≤ (((move_ctor (((new : SmallVector Nat 1).push_back 3).push_back 4)).2).push_back 5).capacity ∧
    1 ≤ (((move_ctor (((new : SmallVector Nat 1).push_back 3).push_back 4)).2).push_back 5).capacity :=
  ⟨.push_back 5 (.move_ctor_source (.push_back 4 (.push_back 3 .default_ctor))),
   capacity_bounds _
    (.push_back 5 (.move_ctor_source (.push_back 4 (.push_back 3 .default_ctor))))⟩

/-- C15: `pop_back()` and `clear()` never change `capacity()` or the storage
mode; `pop_back()` on an empty vector changes nothing, on a vector holding
`e_0..e_{s-1}` it leaves `e_0..e_{s-2}`; `clear()` sets `size()` to 0; after
appending `K` elements to an empty vector and calling `pop_back()` `K` times,
`size() == 0` and `capacity()` and the storage mode are those it had when
`size()` was `K`. -/
theorem pop_back_clear_frame (v : SmallVector T N) (es : List T) (h : Holds v es) :
    v.pop_back.capacity = v.capacity ∧
    v.pop_back.using_inline = v.using_inline ∧
    (v.size = 0 → v.pop_back = v) ∧
    Holds v.pop_back es.dropLast ∧
    (v.size ≠ 0 → v.pop_back.size + 1 = v.size) ∧
    v.clear.capacity = v.capacity ∧
    v.clear.using_inline = v.using_inline ∧
    v.clear.size = 0 ∧
    Holds v.clear [] ∧
    (es = [] → ∀ xs : List T,
      ((v.run (xs.map Call.push_back)).run (List.replicate xs.length Call.pop_back)).size = 0 ∧
      ((v.run (xs.map Call.push_back)).run (List.replicate xs.length Call.pop_back)).capacity
        = (v.run (xs.map Call.push_back)).capacity ∧
      ((v.run (xs.map Call.push_back)).run (List.replicate xs.length Call.pop_back)).using_inline
        = (v.run (xs.map Call.push_back)).using_inline ∧
      (v.run (xs.map Call.push_back)).size = xs.length) := by
  have hp := pop_back_frame v
  have hc := clear_frame v
  refine ⟨hp.1, hp.2.1, ?_, h.of_pop_back, ?_, hc.1, hc.2.1, hc.2.2, h.of_clear, ?_⟩
  · intro hz
    have hz2 : v.size_ = 0 := hz
    rw [pop_back, if_pos hz2]
  · intro hz
    have hz2 : v.size_ ≠ 0 := hz
    rw [size, size, hp.2.2]
    omega
  · intro he xs
    subst he
    have hh := run_push_back_holds xs h
    have hk := run_pop_back_frame xs.length (v.run (xs.map Call.push_back))
    have hsz : (v.run (xs.map Call.push_back)).size_ = xs.length := by
      rw [hh.size_eq]
      simp
    refine ⟨?_, hk.1, hk.2.1, hsz⟩
    rw [size, hk.2.2, hsz]
    omega

/-- Witness of C15: three appends to an empty vector of inline capacity 2, then
three `pop_back` calls. -/
theorem pop_back_clear_frame_witness :
    Holds (new : SmallVector Nat 2) [] ∧
    (((new : SmallVector Nat 2).run ([1, 2, 3].map Call.push_back)).run
        (List.replicate [1, 2, 3].length Call.pop_back)).size = 0 ∧
    (((new : SmallVector Nat 2).run ([1, 2, 3].map Call.push_back)).run
        (List.replicate [1, 2, 3].length Call.pop_back)).capacity
      = ((new : SmallVector Nat 2).run ([1, 2, 3].map Call.push_back)).capacity ∧
    (((new : SmallVector Nat 2).run ([1, 2, 3].map Call.push_back)).run
        (List.replicate [1, 2, 3].length Call.pop_back)).using_inline
      = ((new : SmallVector Nat 2).run ([1, 2, 3].map Call.push_back)).using_inline ∧
    ((new : SmallVector Nat 2).run ([1, 2, 3].map Call.push_back)).size = [1, 2, 3].length :=
  ⟨Holds.of_new,
   (pop_back_clear_frame (new : SmallVector Nat 2) [] Holds.of_new).2.2.2.2.2.2.2.2.2 rfl
     [1, 2, 3]⟩

theorem grow_to_on_ok (t : Target) (v : SmallVector T N) (n : Nat) (hs : 0 < t.sizeof_T)
    (hw : t.sizeof_T * n < SIZE_MODULUS) (hb : t.sizeof_T * n ≤ t.heap_bytes) :
    v.grow_to_on t n = .ok (v.grow_to n) := by
  have h1 : ¬ t.heap_bytes < t.sizeof_T * n := by omega
  simp only [grow_to_on, grow_to, Nat.mod_eq_of_lt hw, h1, if_false,
    Nat.mul_div_cancel_left n hs]

theorem grow_to_on_bad_alloc (t : Target) (v : SmallVector T N) (n : Nat)
    (hw : t.sizeof_T * n < SIZE_MODULUS) (hb : t.heap_bytes < t.sizeof_T * n) :
    v.grow_to_on t n = .error .bad_alloc := by
  simp only [grow_to_on, Nat.mod_eq_of_lt hw, hb, if_true]

/-- C16, as amended: on any target, if `n ≤ capacity()`, `reserve(n)` changes
nothing; if `n > capacity()` and `sizeof(T) * n` does not exceed `SIZE_MAX`,
`reserve(n)` either throws `std::bad_alloc`, when the storage cannot be
allocated (nothing has been assigned then), or leaves `size()` and the element
at every index unchanged, sets `capacity()` to exactly `n` and leaves the
vector in heap mode. -/
theorem reserve_on_contract (t : Target) (v : SmallVector T N) (es : List T)
    (h : Holds v es) (n : Nat) :
    (n ≤ v.capacity → v.reserve_on t n = .ok v) ∧
    (v.capacity < n → 0 < t.sizeof_T → t.sizeof_T * n < SIZE_MODULUS →
      (t.heap_bytes < t.sizeof_T * n → v.reserve_on t n = .error .bad_alloc) ∧
      (t.sizeof_T * n ≤ t.heap_bytes →
        ∃ w : SmallVector T N, v.reserve_on t n = .ok w ∧
          Holds w es ∧
          w.size = v.size ∧
          (∀ i, w.subscript i = v.subscript i) ∧
          w.capacity = n ∧
          w.using_inline = false)) := by
  constructor
  · intro hn
    have hn2 : n ≤ v.cap_ := hn
    rw [reserve_on, if_pos hn2]
  · intro hn hs hw
    have hn2 : ¬ n ≤ v.cap_ := by
      have : v.cap_ < n := hn
      omega
    constructor
    · intro hb
      rw [reserve_on, if_neg hn2, grow_to_on_bad_alloc t v n hw hb]
    · intro hb
      have hf := reserve_frame v n
      have hr := h.of_reserve n
      have e : v.reserve n = v.grow_to n := by rw [reserve, if_neg hn2]
      refine ⟨v.reserve n, ?_, hr, hf.1, ?_, (hf.2.2 hn).1, (hf.2.2 hn).2⟩
      · rw [reserve_on, if_neg hn2, grow_to_on_ok t v n hs hw hb, e]
      · intro i
        rw [hr.subscript_eq, h.subscript_eq]

/-- Witness of C16 as amended: `reserve(5)` on an inline vector of capacity 2
holding one element, on a 64-bit target with `int` elements. -/
theorem reserve_on_contract_witness :
    Holds ((new : SmallVector Nat 2).push_back 9) [9] ∧
    ((new : SmallVector Nat 2).push_back 9).capacity < 5 ∧
    0 < lp64_int.sizeof_T ∧
    lp64_int.sizeof_T * 5 < SIZE_MODULUS ∧
    lp64_int.sizeof_T * 5 ≤ lp64_int.heap_bytes ∧
    ∃ w : SmallVector Nat 2, ((new : SmallVector Nat 2).push_back 9).reserve_on lp64_int 5 = .ok w ∧
      Holds w [9] ∧
      w.size = ((new : SmallVector Nat 2).push_back 9).size ∧
      (∀ i, w.subscript i = ((new : SmallVector Nat 2).push_back 9).subscript i) ∧
      w.capacity = 5 ∧
      w.using_inline = false :=
  ⟨Holds.of_new.of_push_back 9, by decide, by decide, by decide, by decide,
   ((reserve_on_contract lp64_int ((new : SmallVector Nat 2).push_back 9) [9]
      (Holds.of_new.of_push_back 9) 5).2 (by decide) (by decide) (by decide)).2 (by decide)⟩

/-- C16 as stated fails in two ways on a vector of inline capacity 2 holding
`5, 6`.  On a target whose heap cannot supply 20 bytes, `reserve(5)` throws
`std::bad_alloc` and the capacity does not become 5.  On a 64-bit target with
`int` elements, `reserve(2 ^ 62 + 1)` asks for `4 * (2 ^ 62 + 1)` bytes, which
wraps to 4: the block has room for one element, the capacity is set to
`2 ^ 62 + 1` all the same, and the element at index 1 is not kept. -/
theorem reserve_on_contract_counterexample :
    (((new : SmallVector Nat 2).push_back 5).push_back 6).capacity < 5 ∧
    (((new : SmallVector Nat 2).push_back 5).push_back 6).reserve_on
        { sizeof_T := 4, max_size := (2 ^ 63 - 1) / 4, heap_bytes := 16 } 5
      = .error .bad_alloc ∧
    (((new : SmallVector Nat 2).push_back 5).push_back 6).capacity < 2 ^ 62 + 1 ∧
    (((new : SmallVector Nat 2).push_back 5).push_back 6).subscript 1 = some 6 ∧
    ((((new : SmallVector Nat 2).push_back 5).push_back 6).reserve_on lp64_int
        (2 ^ 62 + 1)).map (fun w => (w.capacity, w.size, w.subscript 0, w.subscript 1))
      = .ok (2 ^ 62 + 1, 2, some 5, none) := by
  refine ⟨by decide, by decide, by decide, by decide, by decide⟩

/-- C17: with `s` the vector at address `other`, holding `e_0..e_{k-1}`: move
construction from `s` gives a new vector in the state `s` had (the same
elements, size, capacity and storage mode) and leaves `s` in the
default-constructed state (size 0, capacity `N`, inline); move assignment from
`s` into a distinct target does the same whatever the target held; an inline
`s` has capacity `N`, so its destination is inline with capacity `N`; move
assignment of a vector to itself changes nothing. -/
theorem move_contract (objs : Objects T N) (this other : Nat) (es et : List T)
    (hs : Holds (objs other) es) (ht : Holds (objs this) et) :
    (move_ctor (objs other)).1 = objs other ∧
    (move_ctor (objs other)).2 = new ∧
    Holds (move_ctor (objs other)).1 es ∧
    (move_ctor (objs other)).1.size = es.length ∧
    (this ≠ other →
      (move_assign objs this other) this = objs other ∧
      Holds ((move_assign objs this other) this) es ∧
      ((move_assign objs this other) this).size = es.length ∧
      (move_assign objs this other) other = new ∧
      ∀ c, c ≠ this → c ≠ other → (move_assign objs this other) c = objs c) ∧
    move_assign objs this this = objs ∧
    ((objs other).using_inline = true → (objs other).capacity = N) ∧
    Holds (new : SmallVector T N) [] ∧
    (new : SmallVector T N).size = 0 ∧
    (new : SmallVector T N).capacity = N ∧
    (new : SmallVector T N).using_inline = true := by
  have hm := hs.move_ctor_eq
  have ha := ht.move_assign_from_eq hs
  refine ⟨by rw [hm], by rw [hm], by rw [hm]; exact hs, by rw [hm]; exact hs.size_eq, ?_, ?_,
    hs.inline_cap, Holds.of_new, rfl, rfl, rfl⟩
  · intro hne
    have hne2 : other ≠ this := fun e => hne e.symm
    have e1 : (move_assign objs this other) this = objs other := by
      simp [move_assign, hne, ha, Function.update]
    have e2 : (move_assign objs this other) other = new := by
      simp [move_assign, hne, ha, Function.update]
    refine ⟨e1, e1 ▸ hs, by rw [e1]; exact hs.size_eq, e2, ?_⟩
    intro c h1 h2
    simp [move_assign, hne, Function.update, h1, h2]
  · simp [move_assign]

/-- Witness of C17: a heap-mode vector at address 1 move-assigned into an
inline-mode vector at address 0. -/
theorem move_contract_witness :
    Holds (((new : SmallVector Nat 1).push_back 3).push_back 4) [3, 4] ∧
    Holds ((new : SmallVector Nat 1).push_back 9) [9] ∧
    (0 : Nat) ≠ 1 ∧
    (move_assign (fun | 0 => (new : SmallVector Nat 1).push_back 9
                      | _ => ((new : SmallVector Nat 1).push_back 3).push_back 4) 0 1) 0
      = ((new : SmallVector Nat 1).push_back 3).push_back 4 ∧
    (move_assign (fun | 0 => (new : SmallVector Nat 1).push_back 9
                      | _ => ((new : SmallVector Nat 1).push_back 3).push_back 4) 0 1) 1
      = new :=
  ⟨(Holds.of_new.of_push_back 3).of_push_back 4, Holds.of_new.of_push_back 9, by decide,
   ((move_contract (fun | 0 => (new : SmallVector Nat 1).push_back 9
                        | _ => ((new : SmallVector Nat 1).push_back 3).push_back 4) 0 1
      [3, 4] [9] ((Holds.of_new.of_push_back 3).of_push_back 4)
      (Holds.of_new.of_push_back 9)).2.2.2.2.1 (by decide)).1,
   ((move_contract (fun | 0 => (new : SmallVector Nat 1).push_back 9
                        | _ => ((new : SmallVector Nat 1).push_back 3).push_back 4) 0 1
      [3, 4] [9] ((Holds.of_new.of_push_back 3).of_push_back 4)
      (Holds.of_new.of_push_back 9)).2.2.2.2.1 (by decide)).2.2.2.1⟩

/-- C18: with `s` the vector at address `other`: copy construction from `s`
gives a vector with `size() == s.size()`, the element of `s` at every index,
`capacity() == max(N, s.size())` and inline storage iff `s.size() ≤ N`; copy
assignment from `s` into a distinct target leaves the target in that same
state and `s` and every other object unchanged; copy assignment of a vector
to itself changes nothing.  The copy constructor takes `s` as `const` and its
embedding has no `s` in its result. -/
theorem copy_contract (objs : Objects T N) (this other : Nat) (es et : List T)
    (hs : Holds (objs other) es) (ht : Holds (objs this) et) :
    Holds (copy_ctor (objs other)) es ∧
    (copy_ctor (objs other)).size = (objs other).size ∧
    (∀ i, (copy_ctor (objs other)).subscript i = (objs other).subscript i) ∧
    (copy_ctor (objs other)).capacity = max N (objs other).size ∧
    ((copy_ctor (objs other)).using_inline = true ↔ (objs other).size ≤ N) ∧
    (this ≠ other →
      (copy_assign objs this other) this = copy_ctor (objs other) ∧
      (copy_assign objs this other) other = objs other ∧
      ∀ c, c ≠ this → (copy_assign objs this other) c = objs c) ∧
    copy_assign objs this this = objs := by
  have hc := hs.of_copy_ctor
  have hf := copy_ctor_frame (objs other)
  have ha := ht.copy_assign_from_eq hs
  refine ⟨hc, hf.1, ?_, hf.2.1, hf.2.2, ?_, ?_⟩
  · intro i
    rw [hc.subscript_eq, hs.subscript_eq]
  · intro hne
    have hne2 : other ≠ this := fun e => hne e.symm
    refine ⟨?_, ?_, ?_⟩
    · simp [copy_assign, hne, ha, Function.update]
    · simp [copy_assign, hne, hne2, Function.update]
    · intro c h1
      simp [copy_assign, hne, Function.update, h1]
  · simp [copy_assign]

/-- Witness of C18: a three-element heap-mode vector at address 1 copy-assigned
into an empty vector of inline capacity 2 at address 0. -/
theorem copy_contract_witness :
    Holds ((((new : SmallVector Nat 2).push_back 3).push_back 4).push_back 5) [3, 4, 5] ∧
    Holds (new : SmallVector Nat 2) [] ∧
    (0 : Nat) ≠ 1 ∧
    (copy_assign (fun | 0 => (new : SmallVector Nat 2)
                      | _ => (((new : SmallVector Nat 2).push_back 3).push_back 4).push_back 5)
        0 1) 0
      = copy_ctor ((((new : SmallVector Nat 2).push_back 3).push_back 4).push_back 5) ∧
    (copy_ctor ((((new : SmallVector Nat 2).push_back 3).push_back 4).push_back 5)).capacity
      = max 2 ((((new : SmallVector Nat 2).push_back 3).push_back 4).push_back 5).size :=
  ⟨((Holds.of_new.of_push_back 3).of_push_back 4).of_push_back 5, Holds.of_new, by decide,
   ((copy_contract (fun | 0 => (new : SmallVector Nat 2)
                        | _ => (((new : SmallVector Nat 2).push_back 3).push_back 4).push_back 5)
      0 1 [3, 4, 5] [] (((Holds.of_new.of_push_back 3).of_push_back 4).of_push_back 5)
      Holds.of_new).2.2.2.2.2.1 (by decide)).1,
   (copy_contract (fun | 0 => (new : SmallVector Nat 2)
                       | _ => (((new : SmallVector Nat 2).push_back 3).push_back 4).push_back 5)
      0 1 [3, 4, 5] [] (((Holds.of_new.of_push_back 3).of_push_back 4).of_push_back 5)
      Holds.of_new).2.2.2.1⟩

/-- C19: for two distinct vectors at addresses `a` and `b`, in any combination
of storage modes, `a.swap(b)` exchanges their states: afterwards the vector at
`a` is in the state the one at `b` had (elements, size, capacity, storage mode)
and the one at `b` in the state the one at `a` had, no other object changes,
and swapping twice restores every object; `a.swap(a)` changes nothing. -/
theorem swap_contract (objs : Objects T N) (a b : Nat) (ea eb : List T)
    (ha : Holds (objs a) ea) (hb : Holds (objs b) eb) :
    (a ≠ b →
      (swap objs a b) a = objs b ∧
      (swap objs a b) b = objs a ∧
      Holds ((swap objs a b) a) eb ∧
      Holds ((swap objs a b) b) ea ∧
      ((swap objs a b) a).size = (objs b).size ∧
      ((swap objs a b) a).capacity = (objs b).capacity ∧
      ((swap objs a b) a).using_inline = (objs b).using_inline ∧
      ((swap objs a b) b).size = (objs a).size ∧
      ((swap objs a b) b).capacity = (objs a).capacity ∧
      ((swap objs a b) b).using_inline = (objs a).using_inline ∧
      (∀ c, c ≠ a → c ≠ b → (swap objs a b) c = objs c) ∧
      swap (swap objs a b) a b = objs) ∧
    swap objs a a = objs := by
  have hsw := ha.swap_with_eq hb
  have hsw2 := hb.swap_with_eq ha
  refine ⟨fun hne => ?_, by simp [swap]⟩
  have hne2 : b ≠ a := fun e => hne e.symm
  have e0 : swap objs a b = Function.update (Function.update objs a (objs b)) b (objs a) := by
    simp [swap, hne, hsw]
  have e1 : (swap objs a b) a = objs b := by
    rw [e0]
    simp [Function.update, hne]
  have e2 : (swap objs a b) b = objs a := by
    rw [e0]
    simp [Function.update]
  refine ⟨e1, e2, e1 ▸ hb, e2 ▸ ha, by rw [e1], by rw [e1], by rw [e1], by rw [e2], by rw [e2],
    by rw [e2], ?_, ?_⟩
  · intro c h1 h2
    rw [e0]
    simp [Function.update, h1, h2]
  · have e3 : swap (swap objs a b) a b
        = Function.update (Function.update (swap objs a b) a ((swap objs a b) b)) b
            ((swap objs a b) a) := by
      have hsw3 : swap_with ((swap objs a b) a) ((swap objs a b) b)
          = ((swap objs a b) b, (swap objs a b) a) := by
        rw [e1, e2]
        exact hsw2
      simp only [swap, if_neg hne] at hsw3 ⊢
      rw [hsw3]
    rw [e3, e1, e2, e0]
    exact update_swap objs a b

/-- Witness of C19: an inline-mode vector at address 0 swapped with a heap-mode
vector at address 1. -/
theorem swap_contract_witness :
    Holds ((new : SmallVector Nat 1).push_back 9) [9] ∧
    Holds (((new : SmallVector Nat 1).push_back 3).push_back 4) [3, 4] ∧
    (0 : Nat) ≠ 1 ∧
    (swap (fun | 0 => (new : SmallVector Nat 1).push_back 9
               | _ => ((new : SmallVector Nat 1).push_back 3).push_back 4) 0 1) 0
      = ((new : SmallVector Nat 1).push_back 3).push_back 4 ∧
    (swap (fun | 0 => (new : SmallVector Nat 1).push_back 9
               | _ => ((new : SmallVector Nat 1).push_back 3).push_back 4) 0 1) 1
      = (new : SmallVector Nat 1).push_back 9 :=
  ⟨Holds.of_new.of_push_back 9, (Holds.of_new.of_push_back 3).of_push_back 4, by decide,
   ((swap_contract (fun | 0 => (new : SmallVector Nat 1).push_back 9
                        | _ => ((new : SmallVector Nat 1).push_back 3).push_back 4) 0 1
      [9] [3, 4] (Holds.of_new.of_push_back 9)
      ((Holds.of_new.of_push_back 3).of_push_back 4)).1 (by decide)).1,
   ((swap_contract (fun | 0 => (new : SmallVector Nat 1).push_back 9
                        | _ => ((new : SmallVector Nat 1).push_back 3).push_back 4) 0 1
      [9] [3, 4] (Holds.of_new.of_push_back 9)
      ((Holds.of_new.of_push_back 3).of_push_back 4)).1 (by decide)).2.1⟩

/-- C20, as amended: in every reachable state the data pointer aliases the
inline block if and only if `capacity() == N`, and points to heap storage if
and only if `capacity() > N`; under `push_back`/`emplace_back`, `pop_back`,
`clear` and `reserve` a vector in heap mode stays in heap mode, and after any
sequence of these calls the pointer aliases the inline block if and only if the
capacity has not exceeded `N` in any state the vector went through. -/
theorem storage_mode (v : SmallVector T N) (hr : Reachable v) :
    (v.using_inline = true ↔ v.capacity = N) ∧
    (v.using_inline = false ↔ N < v.capacity) ∧
    (∀ calls : List (Call T), v.using_inline = false → (v.run calls).using_inline = false) ∧
    (∀ calls : List (Call T),
      (v.run calls).using_inline = true ↔ ∀ s ∈ v.states calls, s.capacity ≤ N) := by
  obtain ⟨es, h⟩ := hr.holds
  refine ⟨h.inline_iff, ?_, fun calls hu => run_heap calls h hu, fun calls => run_inline_iff calls h⟩
  constructor
  · exact fun hu => (h.heap_cap hu).1
  · intro hlt
    cases hu : v.using_inline with
    | false => rfl
    | true =>
      have := h.inline_cap hu
      rw [capacity] at hlt
      omega

/-- Witness of C20 as amended: a vector of inline capacity 1 grown to two
elements and then emptied stays in heap mode. -/
theorem storage_mode_witness :
    Reachable (((new : SmallVector Nat 1).push_back 7).push_back 8) ∧
    (((new : SmallVector Nat 1).push_back 7).push_back 8).using_inline = false ∧
    ((((new : SmallVector Nat 1).push_back 7).push_back 8).run
      [.pop_back, .pop_back, .clear, .push_back 1]).using_inline = false :=
  ⟨.push_back 8 (.push_back 7 .default_ctor), by decide,
   (storage_mode _ (.push_back 8 (.push_back 7 .default_ctor))).2.2.1
     [.pop_back, .pop_back, .clear, .push_back 1] (by decide)⟩

/-- C20 as stated fails: a vector of inline capacity 1 that has grown to two
elements is in heap mode, and being the source of a move construction returns
it to inline storage; and `reserve(2)` on a fresh vector of inline capacity 1
moves it to heap storage although it has never held an element. -/
theorem storage_mode_counterexample :
    Reachable (((new : SmallVector Nat 1).push_back 7).push_back 8) ∧
    (((new : SmallVector Nat 1).push_back 7).push_back 8).size = 2 ∧
    (((new : SmallVector Nat 1).push_back 7).push_back 8).using_inline = false ∧
    Reachable (move_ctor (((new : SmallVector Nat 1).push_back 7).push_back 8)).2 ∧
    (move_ctor (((new : SmallVector Nat 1).push_back 7).push_back 8)).2.using_inline = true ∧
    Reachable ((new : SmallVector Nat 1).reserve 2) ∧
    ((new : SmallVector Nat 1).reserve 2).using_inline = false ∧
    (∀ s ∈ (new : SmallVector Nat 1).states [.reserve 2], s.size ≤ 1) :=
  ⟨.push_back 8 (.push_back 7 .default_ctor), by decide, by decide,
   .move_ctor_source (.push_back 8 (.push_back 7 .default_ctor)), by decide,
   .reserve 2 .default_ctor, by decide, by decide⟩

/-- C21, as amended: counting copy and move constructions of `T`, with `s` the
vector at address `other`: move construction from `s`, and move assignment from
`s` into a distinct target, perform zero element constructions when `s` is in
heap mode and exactly `s.size()` when `s` is in inline mode; move assignment of
a vector to itself performs none.  The counted functions compute the same
objects as the uncounted ones. -/
theorem move_cost (objs : Objects T N) (this other : Nat) :
    (move_ctor_counted (objs other)).1 = move_ctor (objs other) ∧
    ((objs other).using_inline = false → (move_ctor_counted (objs other)).2 = 0) ∧
    ((objs other).using_inline = true →
      (move_ctor_counted (objs other)).2 = (objs other).size) ∧
    (this ≠ other →
      (move_assign_counted objs this other).1 = move_assign objs this other ∧
      ((objs other).using_inline = false → (move_assign_counted objs this other).2 = 0) ∧
      ((objs other).using_inline = true →
        (move_assign_counted objs this other).2 = (objs other).size)) ∧
    (move_assign_counted objs this this).1 = move_assign objs this this ∧
    (move_assign_counted objs this this).2 = 0 := by
  have hc := move_ctor_counted_eq (objs other)
  have ha := move_assign_from_counted_eq (objs this) (objs other)
  refine ⟨by rw [hc], ?_, ?_, ?_, ?_, ?_⟩
  · intro hu
    rw [hc, hu]
    rfl
  · intro hu
    rw [hc, hu]
    rfl
  · intro hne
    refine ⟨?_, ?_, ?_⟩
    · simp only [move_assign_counted, move_assign, if_neg hne, ha]
    · intro hu
      simp only [move_assign_counted, if_neg hne, ha, hu]
      rfl
    · intro hu
      simp only [move_assign_counted, if_neg hne, ha, hu]
      rfl
  · simp only [move_assign_counted, move_assign, if_true]
  · simp only [move_assign_counted, if_true]

/-- Witness of C21 as amended: an inline-mode vector with two elements at
address 1 move-assigned into a heap-mode vector at address 0. -/
theorem move_cost_witness :
    (0 : Nat) ≠ 1 ∧
    (((new : SmallVector Nat 2).push_back 3).push_back 4).using_inline = true ∧
    (move_assign_counted
        (fun | 0 => (((new : SmallVector Nat 2).push_back 7).push_back 8).push_back 9
             | _ => ((new : SmallVector Nat 2).push_back 3).push_back 4) 0 1).2
      = (((new : SmallVector Nat 2).push_back 3).push_back 4).size :=
  ⟨by decide, by decide,
   ((move_cost
      (fun | 0 => (((new : SmallVector Nat 2).push_back 7).push_back 8).push_back 9
           | _ => ((new : SmallVector Nat 2).push_back 3).push_back 4) 0 1).2.2.2.1
      (by decide)).2.2 (by decide)⟩

/-- C21 as stated fails for move assignment of a vector to itself: the vector is
in inline mode with one element, and the assignment returns at the test
`this == &other` with no element constructed, not `size()` of them. -/
theorem move_cost_counterexample :
    ((new : SmallVector Nat 2).push_back 3).using_inline = true ∧
    ((new : SmallVector Nat 2).push_back 3).size = 1 ∧
    (move_assign_counted (fun _ => (new : SmallVector Nat 2).push_back 3) 0 0).2 = 0 ∧
    (move_assign_counted (fun _ => (new : SmallVector Nat 2).push_back 3) 0 0).2
      ≠ ((new : SmallVector Nat 2).push_back 3).size := by
  refine ⟨by decide, by decide, by decide, by decide⟩

end SmallVector
